import Mathlib

/-!
Verification development for the flights-path repository: an in-memory
directed-graph engine (vertex/edge store, cycle prevention, backward
cycle-detection DFS) and the path synthesizer `calculate` that turns a
list of `[source, target]` flight segments into the longest chain.

Go maps iterate in an unspecified order.  Every place the source ranges
over a map bucket is parametrised here by an `Iter`, a function on lists
that is provably a permutation; theorems quantify over it, so they cover
every iteration order the runtime can produce.

The Go `for len(stack) > 0` loops of the two depth-first searches are
encoded with an explicit fuel counter (`Option` result, `none` = fuel ran
out); `dfsFuel` is proved sufficient, so the `none` branch is dead code.
-/

namespace Flightpath

/-- Error values of `pkg/graph/graph.go` (`ErrVertexNotFound` …) and
`pkg/graph/paths.go` (`ErrTargetNotReachable`).  The Go code wraps them in
context messages with `fmt.Errorf("…: %w", err)`; `errors.Is` still matches
the wrapped value, so only the identity is modelled. -/
inductive GErr where
  | vertexNotFound
  | vertexAlreadyExists
  | edgeNotFound
  | edgeAlreadyExists
  | edgeCreatesCycle
  | vertexHasEdges
  | targetNotReachable
deriving DecidableEq

/-- The `Edge[K]` struct of `graph.go`: an ordered pair of vertex hashes. -/
structure Edge (K : Type) where
  source : K
  target : K
deriving DecidableEq

/-- The `Traits` record of `traits.go`. -/
structure Traits where
  isDirected : Bool := false
  isAcyclic : Bool := false
  preventCycles : Bool := false
deriving DecidableEq

/-- The functional option `graph.Directed()`. -/
def Directed : Traits → Traits := fun t => { t with isDirected := true }

/-- The functional option `graph.Acyclic()`. -/
def Acyclic : Traits → Traits := fun t => { t with isAcyclic := true }

/-- The functional option `graph.PreventCycles()`: applies `Acyclic` and sets
`preventCycles`. -/
def PreventCycles : Traits → Traits := fun t => { Acyclic t with preventCycles := true }

/-- Modelled from the spec: the in-memory `Store` implementation
(`newMemoryStore`, used by `graph.New`) is not among the provided sources.
Spec §3/§4.1: the store owns the authoritative mapping hash→vertex and
(source,target)→edge.  Both maps are modelled as association lists in
insertion order; no operation of this file depends on the order of the
store's own snapshots (`ListVertices`/`ListEdges`), only on the iteration
order of the derived adjacency/predecessor buckets, which is parametrised
by `Iter` at each use site. -/
structure memoryStore (K T : Type) where
  vertices : List (K × T) := []
  edges : List ((K × K) × Edge K) := []

variable {K T : Type} [DecidableEq K]

/-- Modelled from the spec (§4.1): `AddVertex(hash, value)` fails with
`VertexAlreadyExists` if the hash is present, otherwise records the vertex. -/
def memoryStore.AddVertex (s : memoryStore K T) (hash : K) (value : T) :
    Except GErr (memoryStore K T) :=
  if (s.vertices.map Prod.fst).contains hash then .error .vertexAlreadyExists
  else .ok { s with vertices := s.vertices ++ [(hash, value)] }

/-- Modelled from the spec (§4.1): `Vertex(hash)` returns the value or fails
with `VertexNotFound`. -/
def memoryStore.Vertex (s : memoryStore K T) (hash : K) : Except GErr T :=
  match s.vertices.find? (fun p => p.1 = hash) with
  | some p => .ok p.2
  | none => .error .vertexNotFound

/-- Modelled from the spec (§4.1): `RemoveVertex(hash)` fails with
`VertexHasEdges` if any edge references the hash, else with `VertexNotFound`
if it is absent, otherwise removes it.  Failing calls never modify the store. -/
def memoryStore.RemoveVertex (s : memoryStore K T) (hash : K) :
    Except GErr (memoryStore K T) :=
  if s.edges.any (fun p => p.2.source = hash || p.2.target = hash) then
    .error .vertexHasEdges
  else if (s.vertices.map Prod.fst).contains hash then
    .ok { s with vertices := s.vertices.filter (fun p => ¬ p.1 = hash) }
  else .error .vertexNotFound

/-- Modelled from the spec (§4.1): `AddEdge(source, target, edge)` fails with
`VertexNotFound` if either endpoint is absent and with `EdgeAlreadyExists` if
the (source, target) pair is present, otherwise records the edge under that
pair. -/
def memoryStore.AddEdge (s : memoryStore K T) (source target : K) (edge : Edge K) :
    Except GErr (memoryStore K T) :=
  if ¬ (s.vertices.map Prod.fst).contains source then .error .vertexNotFound
  else if ¬ (s.vertices.map Prod.fst).contains target then .error .vertexNotFound
  else if (s.edges.map Prod.fst).contains (source, target) then .error .edgeAlreadyExists
  else .ok { s with edges := s.edges ++ [((source, target), edge)] }

/-- Modelled from the spec (§4.1): `Edge(source, target)` returns the stored
edge or fails with `EdgeNotFound`. -/
def memoryStore.Edge (s : memoryStore K T) (source target : K) : Except GErr (Edge K) :=
  match s.edges.find? (fun p => p.1 = (source, target)) with
  | some p => .ok p.2
  | none => .error .edgeNotFound

/-- Modelled from the spec (§4.1): `RemoveEdge(source, target)` deletes the
pair; §4.1 lists no failure for it (the engine checks existence first). -/
def memoryStore.RemoveEdge (s : memoryStore K T) (source target : K) : memoryStore K T :=
  { s with edges := s.edges.filter (fun p => ¬ p.1 = (source, target)) }

/-- Modelled from the spec (§4.1): `ListVertices()`, a full snapshot of the
vertex hashes. -/
def memoryStore.ListVertices (s : memoryStore K T) : List K :=
  s.vertices.map Prod.fst

/-- Modelled from the spec (§4.1): `ListEdges()`, a full snapshot of the
stored edges. -/
def memoryStore.ListEdges (s : memoryStore K T) : List (Flightpath.Edge K) :=
  s.edges.map Prod.snd

/-- Modelled from the spec (§4.1): `VertexCount()`. -/
def memoryStore.VertexCount (s : memoryStore K T) : Nat :=
  s.vertices.length

/-- The `directed[K, T]` graph of `part_001`, holding the hash function, the
traits and its exclusively-owned store (`graph.New` always backs it with the
default in-memory store). -/
structure directed (K T : Type) where
  hash : T → K
  traits : Traits
  store : memoryStore K T

/-- An iteration-order oracle: stands for the unspecified order in which a Go
`for … range m` statement walks a map bucket.  Any such walk emits each key
exactly once, hence a permutation. -/
structure Iter (K : Type) where
  f : List K → List K
  perm : ∀ l : List K, (f l).Perm l

/-- The identity iteration order. -/
def idIter : Iter K := ⟨id, fun l => List.Perm.refl l⟩

/-- The reversed iteration order. -/
def revIter : Iter K := ⟨List.reverse, fun l => List.reverse_perm l⟩

/-- `graph.New(hash, options…)`: applies the functional options to a zero
`Traits` record and wraps a fresh in-memory store (`graph.go`). -/
def New (hash : T → K) (options : List (Traits → Traits)) : directed K T :=
  ⟨hash, options.foldl (fun t o => o t) {}, {}⟩

/-- `graph.StringHash`: the identity hash on strings (`graph.go`). -/
def StringHash : String → String := id

/-- `directed.AddVertex` (`part_001`): hashes the value and stores it; on a
store error the graph is returned unchanged (the store rejects without
mutating). -/
def directed.AddVertex (d : directed K T) (value : T) : directed K T × Option GErr :=
  match d.store.AddVertex (d.hash value) value with
  | .ok st => ({ d with store := st }, none)
  | .error e => (d, some e)

/-- `directed.Vertex` (`part_001`): delegates to the store. -/
def directed.Vertex (d : directed K T) (hash : K) : Except GErr T :=
  d.store.Vertex hash

/-- `directed.RemoveVertex` (`part_001`): delegates to the store; on a store
error the graph is returned unchanged. -/
def directed.RemoveVertex (d : directed K T) (hash : K) : directed K T × Option GErr :=
  match d.store.RemoveVertex hash with
  | .ok st => ({ d with store := st }, none)
  | .error e => (d, some e)

/-- `directed.Edge` (`part_001`): store lookup of the pair, then of both
endpoint vertices, producing an `Edge` of vertex values. -/
def directed.Edge (d : directed K T) (sourceHash targetHash : K) : Except GErr (Edge T) :=
  match d.store.Edge sourceHash targetHash with
  | .error e => .error e
  | .ok _ =>
    match d.store.Vertex sourceHash with
    | .error e => .error e
    | .ok sv =>
      match d.store.Vertex targetHash with
      | .error e => .error e
      | .ok tv => .ok ⟨sv, tv⟩

/-- `directed.Edges` (`part_001`): the store's edge snapshot. -/
def directed.Edges (d : directed K T) : List (Flightpath.Edge K) :=
  d.store.ListEdges

/-- `directed.RemoveEdge` (`part_001`): fails when the edge is not found,
otherwise deletes it from the store. -/
def directed.RemoveEdge (d : directed K T) (source target : K) : directed K T × Option GErr :=
  match d.Edge source target with
  | .error e => (d, some e)
  | .ok _ => ({ d with store := d.store.RemoveEdge source target }, none)

/-- `directed.Order` (`part_001`): the store's vertex count. -/
def directed.Order (d : directed K T) : Nat :=
  d.store.VertexCount

/-- The keys of the bucket `PredecessorMap()[v]` (`part_001`): the sources of
all edges whose target is `v`, one entry per key.  Go exposes them through an
unordered map; iteration order is applied by the caller via an `Iter`. -/
def predKeys (E : List (Edge K)) (v : K) : List K :=
  ((E.filter (fun e => e.target = v)).map (fun e => e.source)).dedup

/-- The keys of the bucket `AdjacencyMap()[v]` (`part_001`): the targets of
all edges whose source is `v`. -/
def adjKeys (E : List (Edge K)) (v : K) : List K :=
  ((E.filter (fun e => e.source = v)).map (fun e => e.target)).dedup

/-- The `for len(stack) > 0` loop of `CreatesCycle` (`paths.go`): pops the top
hash; skips it if visited; otherwise reports success if it is the target,
else marks it visited and pushes the predecessor-bucket keys (the pushes are
appended and popped from the end, so the next pop takes the last emitted
key — hence the `reverse` onto the head-is-top stack).  Fuel counts loop
iterations; `none` means it ran out. -/
def dfsBackF (it : Iter K) (E : List (Edge K)) (target : K) :
    Nat → List K → List K → Option Bool
  | 0, _, _ => none
  | _ + 1, [], _ => some false
  | fuel + 1, v :: rest, visited =>
    if v ∈ visited then dfsBackF it E target fuel rest visited
    else if v = target then some true
    else dfsBackF it E target fuel ((it.f (predKeys E v)).reverse ++ rest) (v :: visited)

/-- Fuel sufficient for either depth-first loop started on `stack` over the
edge list `E` (proved below): every iteration strictly decreases
`card (stack ∪ pushable) \ visited) * (|E| + 2) + |stack|`. -/
def dfsFuel (E : List (Edge K)) (stack : List K) : Nat :=
  (stack.length + E.length) * (E.length + 2) + stack.length + 1

/-- `graph.CreatesCycle` (`paths.go`): both vertices must exist (their absence
propagates as a wrapped not-found error); a self-loop immediately cycles;
otherwise an iterative DFS walks backward from `source` over predecessor
edges and reports a cycle iff it reaches `target`.  The graph is only read,
never written.  `directed.createsCycle` may divert to a store fast path; the
store is the default in-memory one and §4.3 requires identical semantics, so
the generic algorithm is the model. -/
def CreatesCycle (it : Iter K) (g : directed K T) (source target : K) :
    Except GErr Bool :=
  match g.Vertex source with
  | .error e => .error e
  | .ok _ =>
    match g.Vertex target with
    | .error e => .error e
    | .ok _ =>
      if source = target then .ok true
      else
        .ok ((dfsBackF it g.Edges target (dfsFuel g.Edges [source]) [source] []).getD false)

/-- `directed.AddEdge` (`part_001`): checks both endpoints (wrapped
`VertexNotFound`), then requires the `Edge` lookup to fail with exactly
`ErrEdgeNotFound` (anything else — including success — yields
`ErrEdgeAlreadyExists`), then, if `preventCycles` is set, runs the cycle
check and rejects with `ErrEdgeCreatesCycle` on a positive result; only then
commits the edge to the store.  Every failing path returns the graph
unchanged. -/
def directed.AddEdge (d : directed K T) (it : Iter K) (sourceHash targetHash : K) :
    directed K T × Option GErr :=
  match d.store.Vertex sourceHash with
  | .error e => (d, some e)
  | .ok _ =>
    match d.store.Vertex targetHash with
    | .error e => (d, some e)
    | .ok _ =>
      match d.Edge sourceHash targetHash with
      | .error .edgeNotFound =>
        if d.traits.preventCycles then
          match CreatesCycle it d sourceHash targetHash with
          | .error e => (d, some e)
          | .ok true => (d, some .edgeCreatesCycle)
          | .ok false =>
            match d.store.AddEdge sourceHash targetHash ⟨sourceHash, targetHash⟩ with
            | .ok st => ({ d with store := st }, none)
            | .error e => (d, some e)
        else
          match d.store.AddEdge sourceHash targetHash ⟨sourceHash, targetHash⟩ with
          | .ok st => ({ d with store := st }, none)
          | .error e => (d, some e)
      | _ => (d, some .edgeAlreadyExists)

/-- Modelled from the spec: the DFS traversal primitive (`graph.DFS`, §4.4)
is not among the provided sources.  It pops a hash from an explicit stack;
if unvisited it marks it visited, invokes the visitor, and pushes all
adjacency-bucket keys (appended, popped from the end — hence the `reverse`
onto the head-is-top stack).  This loop is specialised to the visitor
`calculate` uses, which never stops and accumulates the visited vertices in
visitation order; the accumulated sequence is the result.  Fuel counts loop
iterations; `none` means it ran out. -/
def dfsWalkF (it : Iter K) (E : List (Edge K)) :
    Nat → List K → List K → Option (List K)
  | 0, _, _ => none
  | _ + 1, [], _ => some []
  | fuel + 1, v :: rest, visited =>
    if v ∈ visited then dfsWalkF it E fuel rest visited
    else
      match dfsWalkF it E fuel ((it.f (adjKeys E v)).reverse ++ rest) (v :: visited) with
      | some l => some (v :: l)
      | none => none

/-- Modelled from the spec: `DFS(graph, start, visit)` (§4.4) explores the
vertices reachable from `start` along outgoing edges, seeding the stack with
`start`; the adjacency map has one entry per vertex, and the only failure the
interface admits is a missing start vertex (vertex values equal their hashes
here, `calculate` instantiating the graph with `StringHash`). -/
def DFS (it : Iter K) (g : directed K T) (start : K) : Except GErr (List K) :=
  if start ∈ g.store.ListVertices then
    .ok ((dfsWalkF it g.Edges (dfsFuel g.Edges [start]) [start] []).getD [])
  else .error .vertexNotFound

/-- One raw input segment `[source, target]` of the synthesizer. -/
abbrev Seg := String × String

/-- The comparator of the `sort.Slice` call in `calculate` (`part_002`):
lexicographic by source and then by target.  Go compares strings byte-wise;
UTF-8 byte order coincides with code-point order, modelled on `String.data`. -/
def segLess (a b : Seg) : Prop :=
  a.1.data < b.1.data ∨ (a.1 = b.1 ∧ a.2.data < b.2.data)

instance : DecidableRel segLess := fun a b =>
  inferInstanceAs (Decidable (_ ∨ _))

/-- The non-strict order induced by `segLess`; `sort.Slice` leaves the slice
sorted with respect to it. -/
def segLE (a b : Seg) : Prop := segLess a b ∨ a = b

instance : DecidableRel segLE := fun a b =>
  inferInstanceAs (Decidable (_ ∨ _))

/-- The `sort.Slice(segments, …)` step of `calculate`: `segLE` is total,
transitive and antisymmetric (equal sort keys are equal pairs), so every
correct sorting algorithm produces this one list; the unstable pdqsort
behind `sort.Slice` is therefore modelled by any sort, here insertion
sort. -/
def sortSegments (segments : List Seg) : List Seg :=
  List.insertionSort segLE segments

/-- The first half of a loop iteration of the graph-construction phase of
`calculate` (`part_002`), for one endpoint: look the vertex up and, if the
lookup failed, add it, aborting on an `AddVertex` error. -/
def ensureVertex (g : directed String String) (v : String) :
    Except GErr (directed String String) :=
  match g.Vertex v with
  | .ok _ => .ok g
  | .error _ =>
    match g.AddVertex v with
    | (g2, none) => .ok g2
    | (_, some e) => .error e

/-- The edge half of a loop iteration of the graph-construction phase of
`calculate`: look the edge up and, if the lookup failed, add it, aborting on
an `AddEdge` error. -/
def ensureEdge (it : Iter String) (g : directed String String) (s t : String) :
    Except GErr (directed String String) :=
  match g.Edge s t with
  | .ok _ => .ok g
  | .error _ =>
    match g.AddEdge it s t with
    | (g2, none) => .ok g2
    | (_, some e) => .error e

/-- One full iteration of the construction loop of `calculate`: ensure the
source vertex, the target vertex, then the edge. -/
def buildStep (it : Iter String) (g : directed String String) (seg : Seg) :
    Except GErr (directed String String) :=
  match ensureVertex g seg.1 with
  | .error e => .error e
  | .ok g1 =>
    match ensureVertex g1 seg.2 with
    | .error e => .error e
    | .ok g2 => ensureEdge it g2 seg.1 seg.2

/-- The construction loop of `calculate` over the sorted segments; the first
error aborts the synthesis. -/
def buildGraph (it : Iter String) : List Seg → directed String String →
    Except GErr (directed String String)
  | [], g => .ok g
  | seg :: rest, g =>
    match buildStep it g seg with
    | .error e => .error e
    | .ok g2 => buildGraph it rest g2

/-- The graph `calculate` constructs:
`graph.New(graph.StringHash, graph.Directed(), graph.PreventCycles())`. -/
def initialGraph : directed String String :=
  New StringHash [Directed, PreventCycles]

/-- The DFS loop of `calculate`: one DFS per segment source in sorted order;
a failing run only has its error printed (`println(err)`) and contributes
the sequence the visitor accumulated before the failure, which is empty
because the modelled DFS fails only before visiting anything; a strictly
longer sequence replaces the best one, so the first-seen longest run wins. -/
def runsFold (it : Iter String) (g : directed String String) :
    List Seg → List String → List String
  | [], best => best
  | seg :: rest, best =>
    let inner :=
      match DFS it g seg.1 with
      | .ok l => l
      | .error _ => []
    runsFold it g rest (if best.length < inner.length then inner else best)

/-- `SearchController.calculate` (`part_002`).  `ctx` models the
`context.Context` argument (`true` = already cancelled / deadline expired);
the body never consults it, exactly as in the source.  The slice header the
caller passed is sorted in place by `sort.Slice`; the second component of
the result is the caller's slice after the call.  The first component is the
returned `([]string, error)`. -/
def calculate (ctx : Bool) (it : Iter String) (segments : List Seg) :
    Except GErr (List String) × List Seg :=
  match buildGraph it (sortSegments segments) initialGraph with
  | .error e => (.error e, sortSegments segments)
  | .ok g => (.ok (runsFold it g (sortSegments segments) []), sortSegments segments)

/-- Forward reachability over an edge list: reflexive-transitive closure of
single directed edges.  `Reach E a b` means there is a directed path from
`a` to `b` using edges of `E`. -/
inductive Reach (E : List (Edge K)) : K → K → Prop where
  | refl (a : K) : Reach E a a
  | step {a b c : K} : Edge.mk a b ∈ E → Reach E b c → Reach E a c

/-- An edge list contains a directed cycle: some edge closes a path from its
target back to its source (a self-loop qualifies via the reflexive path). -/
def HasCycle (E : List (Edge K)) : Prop :=
  ∃ e, e ∈ E ∧ Reach E e.target e.source

/-- Acyclicity of an edge list. -/
def AcyclicEdges (E : List (Edge K)) : Prop := ¬ HasCycle E

/-- A vertex is present in the graph: its store lookup succeeds. -/
def directed.HasVertex (d : directed K T) (v : K) : Prop :=
  ∃ x, d.Vertex v = Except.ok x

/-- The four mutating public operations of the graph engine, as invokable
actions for reachable-state reasoning. -/
inductive Op (K T : Type) where
  | addVertex (value : T)
  | addEdge (source target : K)
  | removeVertex (hash : K)
  | removeEdge (source target : K)

/-- Runs one operation; a failing operation leaves the graph as it was (every
failing path of the engine returns without mutating the store). -/
def applyOp (it : Iter K) (g : directed K T) : Op K T → directed K T
  | .addVertex v => (g.AddVertex v).1
  | .addEdge s t => (g.AddEdge it s t).1
  | .removeVertex h => (g.RemoveVertex h).1
  | .removeEdge s t => (g.RemoveEdge s t).1

/-- Runs a sequence of operations in order. -/
def applyOps (it : Iter K) (g : directed K T) (ops : List (Op K T)) : directed K T :=
  ops.foldl (applyOp it) g

/-- The finite search space of a depth-first loop: the current stack together
with every key a bucket can ever emit, minus the visited set. -/
def dfsSpace (A stack visited : List K) : Nat :=
  ((stack.toFinset ∪ A.toFinset) \ visited.toFinset).card

/-- The (source, target) pair is not in the store: the lookup fails with
exactly `EdgeNotFound`. -/
def EdgeAbsent (d : directed K T) (s t : K) : Prop :=
  d.store.Edge s t = Except.error .edgeNotFound

/-- The (source, target) pair is in the store. -/
def EdgePresent (d : directed K T) (s t : K) : Prop :=
  ∃ e, d.store.Edge s t = Except.ok e

/-- A segment has been fully incorporated into the graph: both endpoint
vertices and the edge are present. -/
def SegDone (g : directed String String) (seg : Seg) : Prop :=
  g.HasVertex seg.1 ∧ g.HasVertex seg.2 ∧ EdgePresent g seg.1 seg.2

/-- A concrete operation sequence exercising all four engine operations on a
cycle-preventing graph: the edge C→A is rejected (it would close the cycle
A→B→C→A), removing C fails while its edge is attached, and B→C is removed. -/
def exampleOps : List (Op String String) :=
  [Op.addVertex "A", Op.addVertex "B", Op.addVertex "C",
   Op.addEdge "A" "B", Op.addEdge "B" "C", Op.addEdge "C" "A",
   Op.removeVertex "C", Op.removeEdge "B" "C"]

/-- The state after running `exampleOps` on a fresh cycle-preventing graph:
vertices A, B, C and the single edge A→B. -/
def exampleGraph : directed String String :=
  applyOps idIter (New StringHash [Directed, PreventCycles]) exampleOps

/-! ### Reachability basics -/

theorem Reach.trans {E : List (Edge K)} {a b c : K}
    (hab : Reach E a b) (hbc : Reach E b c) : Reach E a c := by
  induction hab with
  | refl _ => exact hbc
  | step he _ ih => exact Reach.step he (ih hbc)

theorem Reach.single {E : List (Edge K)} {a b : K}
    (h : (⟨a, b⟩ : Edge K) ∈ E) : Reach E a b :=
  Reach.step h (Reach.refl b)

theorem Reach.mono {E F : List (Edge K)} {a b : K}
    (hEF : ∀ e, e ∈ E → e ∈ F) (h : Reach E a b) : Reach F a b := by
  induction h with
  | refl a => exact Reach.refl a
  | step he _ ih => exact Reach.step (hEF _ he) ih

theorem mem_predKeys {E : List (Edge K)} {v u : K} :
    u ∈ predKeys E v ↔ (⟨u, v⟩ : Edge K) ∈ E := by
  unfold predKeys
  rw [List.mem_dedup, List.mem_map]
  constructor
  · rintro ⟨e, he, rfl⟩
    obtain ⟨heE, het⟩ := List.mem_filter.mp he
    obtain ⟨s, t⟩ := e
    cases of_decide_eq_true het
    exact heE
  · intro h
    exact ⟨⟨u, v⟩, List.mem_filter.mpr ⟨h, by simp⟩, rfl⟩

theorem mem_adjKeys {E : List (Edge K)} {v u : K} :
    u ∈ adjKeys E v ↔ (⟨v, u⟩ : Edge K) ∈ E := by
  unfold adjKeys
  rw [List.mem_dedup, List.mem_map]
  constructor
  · rintro ⟨e, he, rfl⟩
    obtain ⟨heE, het⟩ := List.mem_filter.mp he
    obtain ⟨s, t⟩ := e
    cases of_decide_eq_true het
    exact heE
  · intro h
    exact ⟨⟨v, u⟩, List.mem_filter.mpr ⟨h, by simp⟩, rfl⟩

theorem predKeys_length_le (E : List (Edge K)) (v : K) :
    (predKeys E v).length ≤ E.length := by
  unfold predKeys
  calc (((E.filter (fun e => e.target = v)).map (fun e => e.source)).dedup).length
      ≤ ((E.filter (fun e => e.target = v)).map (fun e => e.source)).length :=
        (List.dedup_sublist _).length_le
    _ = (E.filter (fun e => e.target = v)).length := List.length_map _ _
    _ ≤ E.length := List.length_filter_le _ _

theorem adjKeys_length_le (E : List (Edge K)) (v : K) :
    (adjKeys E v).length ≤ E.length := by
  unfold adjKeys
  calc (((E.filter (fun e => e.source = v)).map (fun e => e.target)).dedup).length
      ≤ ((E.filter (fun e => e.source = v)).map (fun e => e.target)).length :=
        (List.dedup_sublist _).length_le
    _ = (E.filter (fun e => e.source = v)).length := List.length_map _ _
    _ ≤ E.length := List.length_filter_le _ _

theorem mem_iter_reverse (it : Iter K) (l : List K) (u : K) :
    u ∈ (it.f l).reverse ↔ u ∈ l := by
  rw [List.mem_reverse]
  exact (it.perm l).mem_iff

theorem iter_reverse_length (it : Iter K) (l : List K) :
    (it.f l).reverse.length = l.length := by
  rw [List.length_reverse]
  exact (it.perm l).length_eq

/-! ### Termination measure for the depth-first loops -/

theorem dfsSpace_skip_le (A : List K) (v : K) (rest visited : List K) :
    dfsSpace A rest visited ≤ dfsSpace A (v :: rest) visited := by
  apply Finset.card_le_card
  intro u hu
  rw [Finset.mem_sdiff, Finset.mem_union] at hu ⊢
  refine ⟨hu.1.imp (fun h => ?_) id, hu.2⟩
  simp only [List.toFinset_cons, Finset.mem_insert]
  exact Or.inr h

theorem dfsSpace_push_lt (A : List K) (v : K) (rest pushed visited : List K)
    (hpush : ∀ u, u ∈ pushed → u ∈ A) (hv : v ∉ visited) :
    dfsSpace A (pushed ++ rest) (v :: visited) < dfsSpace A (v :: rest) visited := by
  have hvmem : v ∈ (((v :: rest).toFinset ∪ A.toFinset) \ visited.toFinset) := by
    rw [Finset.mem_sdiff, Finset.mem_union]
    constructor
    · left
      simp
    · simpa using hv
  have hsub : (((pushed ++ rest).toFinset ∪ A.toFinset) \ (v :: visited).toFinset) ⊆
      (((v :: rest).toFinset ∪ A.toFinset) \ visited.toFinset).erase v := by
    intro u hu
    rw [Finset.mem_sdiff, Finset.mem_union] at hu
    obtain ⟨hu1, hu2⟩ := hu
    have huv : ¬ u = v := by
      intro h
      apply hu2
      simp [h]
    have hunv : u ∉ visited.toFinset := by
      intro h
      apply hu2
      simp only [List.toFinset_cons, Finset.mem_insert]
      exact Or.inr h
    rw [Finset.mem_erase]
    refine ⟨huv, ?_⟩
    rw [Finset.mem_sdiff, Finset.mem_union]
    refine ⟨?_, hunv⟩
    rcases hu1 with h | h
    · rw [List.mem_toFinset, List.mem_append] at h
      rcases h with h | h
      · right
        rw [List.mem_toFinset]
        exact hpush u h
      · left
        simp [h]
    · right
      exact h
  calc dfsSpace A (pushed ++ rest) (v :: visited)
      ≤ ((((v :: rest).toFinset ∪ A.toFinset) \ visited.toFinset).erase v).card :=
        Finset.card_le_card hsub
    _ < (((v :: rest).toFinset ∪ A.toFinset) \ visited.toFinset).card :=
        Finset.card_erase_lt_of_mem hvmem

theorem dfsSpace_init_le (A stack : List K) :
    dfsSpace A stack [] ≤ stack.length + A.length := by
  unfold dfsSpace
  calc ((stack.toFinset ∪ A.toFinset) \ ([] : List K).toFinset).card
      ≤ (stack.toFinset ∪ A.toFinset).card := Finset.card_le_card (Finset.sdiff_subset)
    _ ≤ stack.toFinset.card + A.toFinset.card := Finset.card_union_le _ _
    _ ≤ stack.length + A.length :=
        Nat.add_le_add (List.toFinset_card_le _) (List.toFinset_card_le _)

/-! ### The backward search of `CreatesCycle` finds the target exactly when a
path exists -/

theorem dfsBackF_isSome (it : Iter K) (E : List (Edge K)) (target : K) :
    ∀ (fuel : Nat) (stack visited : List K),
      dfsSpace (E.map (fun e => e.source)) stack visited * (E.length + 2) + stack.length
        < fuel →
      (dfsBackF it E target fuel stack visited).isSome := by
  intro fuel
  induction fuel with
  | zero => exact fun stack visited h => absurd h (Nat.not_lt_zero _)
  | succ fuel ih =>
    intro stack visited h
    match stack with
    | [] => simp [dfsBackF]
    | v :: rest =>
      rw [dfsBackF]
      by_cases hvis : v ∈ visited
      · rw [if_pos hvis]
        apply ih
        have hle := dfsSpace_skip_le (E.map fun e => e.source) v rest visited
        have hmul := Nat.mul_le_mul_right (E.length + 2) hle
        simp only [List.length_cons] at h
        linarith
      · rw [if_neg hvis]
        by_cases hvt : v = target
        · rw [if_pos hvt]
          rfl
        · rw [if_neg hvt]
          apply ih
          have hpush : ∀ u, u ∈ (it.f (predKeys E v)).reverse →
              u ∈ E.map (fun e => e.source) := by
            intro u hu
            rw [mem_iter_reverse] at hu
            exact List.mem_map.mpr ⟨⟨u, v⟩, mem_predKeys.mp hu, rfl⟩
          have hlt := dfsSpace_push_lt (E.map fun e => e.source) v rest
            ((it.f (predKeys E v)).reverse) visited hpush hvis
          have hmul : (dfsSpace (E.map fun e => e.source)
              ((it.f (predKeys E v)).reverse ++ rest) (v :: visited) + 1) * (E.length + 2)
              ≤ dfsSpace (E.map fun e => e.source) (v :: rest) visited * (E.length + 2) :=
            Nat.mul_le_mul_right (E.length + 2) hlt
          have hplen : ((it.f (predKeys E v)).reverse).length ≤ E.length := by
            rw [iter_reverse_length]
            exact predKeys_length_le E v
          rw [List.length_append]
          simp only [List.length_cons] at h
          rw [Nat.add_one_mul] at hmul
          linarith

theorem dfsBackF_sound (it : Iter K) (E : List (Edge K)) (target s : K) :
    ∀ (fuel : Nat) (stack visited : List K),
      (∀ v, v ∈ stack → Reach E v s) →
      dfsBackF it E target fuel stack visited = some true →
      Reach E target s := by
  intro fuel
  induction fuel with
  | zero => intro stack visited _ h; exact absurd h (by simp [dfsBackF])
  | succ fuel ih =>
    intro stack visited hinv h
    match stack with
    | [] => exact absurd h (by simp [dfsBackF])
    | v :: rest =>
      rw [dfsBackF] at h
      by_cases hvis : v ∈ visited
      · rw [if_pos hvis] at h
        exact ih rest visited (fun u hu => hinv u (List.mem_cons_of_mem v hu)) h
      · rw [if_neg hvis] at h
        by_cases hvt : v = target
        · exact hvt ▸ hinv v (List.mem_cons_self v rest)
        · rw [if_neg hvt] at h
          refine ih _ (v :: visited) ?_ h
          intro u hu
          rcases List.mem_append.mp hu with hu | hu
          · rw [mem_iter_reverse] at hu
            exact Reach.step (mem_predKeys.mp hu) (hinv v (List.mem_cons_self v rest))
          · exact hinv u (List.mem_cons_of_mem v hu)

theorem dfsBackF_complete (it : Iter K) (E : List (Edge K)) (target : K) :
    ∀ (fuel : Nat) (stack visited : List K),
      dfsBackF it E target fuel stack visited = some false →
      (∀ w, w ∈ visited → ¬ w = target ∧
        ∀ u, u ∈ predKeys E w → u ∈ stack ∨ u ∈ visited) →
      ∃ R : K → Prop, (∀ v, v ∈ stack → R v) ∧ (∀ v, v ∈ visited → R v) ∧
        ¬ R target ∧ (∀ v, R v → ∀ u, u ∈ predKeys E v → R u) := by
  intro fuel
  induction fuel with
  | zero => intro stack visited h; exact absurd h (by simp [dfsBackF])
  | succ fuel ih =>
    intro stack visited h hinv
    match stack with
    | [] =>
      refine ⟨fun u => u ∈ visited, by simp, fun v hv => hv, ?_, ?_⟩
      · intro htv
        exact (hinv target htv).1 rfl
      · intro v hv u hu
        rcases (hinv v hv).2 u hu with h0 | h0
        · exact absurd h0 (List.not_mem_nil u)
        · exact h0
    | v :: rest =>
      rw [dfsBackF] at h
      by_cases hvis : v ∈ visited
      · rw [if_pos hvis] at h
        have hinv2 : ∀ w, w ∈ visited → ¬ w = target ∧
            ∀ u, u ∈ predKeys E w → u ∈ rest ∨ u ∈ visited := by
          intro w hw
          refine ⟨(hinv w hw).1, fun u hu => ?_⟩
          rcases (hinv w hw).2 u hu with h0 | h0
          · rcases List.mem_cons.mp h0 with huv | h1
            · exact Or.inr (huv ▸ hvis)
            · exact Or.inl h1
          · exact Or.inr h0
        obtain ⟨R, hRs, hRv, hRt, hRc⟩ := ih rest visited h hinv2
        exact ⟨R, fun u hu => (List.mem_cons.mp hu).elim (fun huv => huv ▸ hRv v hvis)
          (hRs u), hRv, hRt, hRc⟩
      · rw [if_neg hvis] at h
        by_cases hvt : v = target
        · rw [if_pos hvt] at h
          exact absurd h (by simp)
        · rw [if_neg hvt] at h
          have hinv2 : ∀ w, w ∈ v :: visited → ¬ w = target ∧
              ∀ u, u ∈ predKeys E w →
                u ∈ (it.f (predKeys E v)).reverse ++ rest ∨ u ∈ v :: visited := by
            intro w hw
            rcases List.mem_cons.mp hw with hwv | hw
            · subst hwv
              refine ⟨hvt, fun u hu => ?_⟩
              exact Or.inl (List.mem_append_left _ ((mem_iter_reverse it _ u).mpr hu))
            · refine ⟨(hinv w hw).1, fun u hu => ?_⟩
              rcases (hinv w hw).2 u hu with h0 | h0
              · rcases List.mem_cons.mp h0 with huv | h1
                · exact Or.inr (huv ▸ List.mem_cons_self v visited)
                · exact Or.inl (List.mem_append_right _ h1)
              · exact Or.inr (List.mem_cons_of_mem v h0)
          obtain ⟨R, hRs, hRv, hRt, hRc⟩ :=
            ih ((it.f (predKeys E v)).reverse ++ rest) (v :: visited) h hinv2
          refine ⟨R, ?_, fun u hu => hRv u (List.mem_cons_of_mem v hu), hRt, hRc⟩
          intro u hu
          rcases List.mem_cons.mp hu with huv | h1
          · exact huv ▸ hRv v (List.mem_cons_self v visited)
          · exact hRs u (List.mem_append_right _ h1)

theorem reach_mem_closed {E : List (Edge K)} (R : K → Prop)
    (hclosed : ∀ v, R v → ∀ u, u ∈ predKeys E v → R u) {a b : K}
    (hab : Reach E a b) (hb : R b) : R a := by
  induction hab with
  | refl a => exact hb
  | step he _ ih => exact hclosed _ (ih hb) _ (mem_predKeys.mpr he)

theorem dfsFuel_spec (E : List (Edge K)) (s : K) :
    dfsSpace (E.map (fun e => e.source)) [s] [] * (E.length + 2) + 1 < dfsFuel E [s] := by
  have h1 : dfsSpace (E.map (fun e => e.source)) [s] [] ≤ 1 + E.length := by
    have := dfsSpace_init_le (E.map (fun e => e.source)) [s]
    simpa using this
  have h2 := Nat.mul_le_mul_right (E.length + 2) h1
  unfold dfsFuel
  simp only [List.length_cons, List.length_nil]
  linarith

/-- The backward depth-first search of `CreatesCycle`, run from `s` with the
proved-sufficient fuel, succeeds exactly when a directed path from `t` to `s`
exists. -/
theorem dfsBack_reaches (it : Iter K) (E : List (Edge K)) (s t : K) :
    (dfsBackF it E t (dfsFuel E [s]) [s] []).getD false = true ↔ Reach E t s := by
  have hsome := dfsBackF_isSome it E t (dfsFuel E [s]) [s] [] (by
    have := dfsFuel_spec E s
    simpa using this)
  obtain ⟨b, hb⟩ := Option.isSome_iff_exists.mp hsome
  rw [hb]
  cases b with
  | true =>
    simp only [Option.getD_some, true_iff]
    exact dfsBackF_sound it E t s _ [s] []
      (fun v hv => by rw [List.mem_singleton] at hv; cases hv; exact Reach.refl _) hb
  | false =>
    simp only [Option.getD_some, Bool.false_eq_true, false_iff]
    intro hreach
    obtain ⟨R, hRs, _, hRt, hRc⟩ := dfsBackF_complete it E t _ [s] [] hb (by simp)
    exact hRt (reach_mem_closed R hRc hreach (hRs s (List.mem_singleton_self s)))

/-- Vertex lookups either succeed or fail with exactly `VertexNotFound`. -/
theorem vertex_ok_or_notFound (d : directed K T) (v : K) :
    (∃ x, d.Vertex v = Except.ok x) ∨ d.Vertex v = Except.error .vertexNotFound := by
  unfold directed.Vertex memoryStore.Vertex
  cases d.store.vertices.find? (fun p => p.1 = v) with
  | none => exact Or.inr rfl
  | some p => exact Or.inl ⟨p.2, rfl⟩

theorem hasVertex_iff_contains (d : directed K T) (v : K) :
    d.HasVertex v ↔ (d.store.vertices.map Prod.fst).contains v = true := by
  unfold directed.HasVertex directed.Vertex memoryStore.Vertex
  rw [List.elem_iff, List.mem_map]
  constructor
  · rintro ⟨x, hx⟩
    cases hfind : d.store.vertices.find? (fun p => p.1 = v) with
    | none => rw [hfind] at hx; exact absurd hx (by simp)
    | some pr =>
      refine ⟨pr, List.mem_of_find?_eq_some hfind, ?_⟩
      have h2 := List.find?_some hfind
      exact of_decide_eq_true h2
  · rintro ⟨p, hp, rfl⟩
    have : (d.store.vertices.find? (fun q => q.1 = p.1)).isSome := by
      rw [List.find?_isSome]
      exact ⟨p, hp, by simp⟩
    obtain ⟨q, hq⟩ := Option.isSome_iff_exists.mp this
    exact ⟨q.2, by rw [hq]⟩

theorem edge_ok_or_notFound (st : memoryStore K T) (s t : K) :
    (∃ e, st.Edge s t = Except.ok e) ∨ st.Edge s t = Except.error .edgeNotFound := by
  unfold memoryStore.Edge
  cases st.edges.find? (fun p => p.1 = (s, t)) with
  | none => exact Or.inr rfl
  | some p => exact Or.inl ⟨p.2, rfl⟩

theorem edgeAbsent_iff_not_contains (d : directed K T) (s t : K) :
    EdgeAbsent d s t ↔ ¬ (d.store.edges.map Prod.fst).contains (s, t) = true := by
  unfold EdgeAbsent memoryStore.Edge
  rw [List.elem_iff, List.mem_map]
  constructor
  · intro h hmem
    obtain ⟨p, hp, hfst⟩ := hmem
    cases hfind : d.store.edges.find? (fun q => q.1 = (s, t)) with
    | none =>
      rw [List.find?_eq_none] at hfind
      exact hfind p hp (by simp [hfst])
    | some q => rw [hfind] at h; exact absurd h (by simp)
  · intro h
    cases hfind : d.store.edges.find? (fun q => q.1 = (s, t)) with
    | none => rfl
    | some pr =>
      have h2 := List.find?_some hfind
      exact absurd ⟨pr, List.mem_of_find?_eq_some hfind, of_decide_eq_true h2⟩ h

theorem directed_edge_notFound (d : directed K T) {s t : K} (h : EdgeAbsent d s t) :
    d.Edge s t = Except.error .edgeNotFound := by
  unfold directed.Edge
  rw [h]

/-! ### Characterisation of `CreatesCycle` -/

theorem createsCycle_true_iff (it : Iter K) (g : directed K T) {s t : K}
    (hs : g.HasVertex s) (ht : g.HasVertex t) :
    CreatesCycle it g s t = Except.ok true ↔ (s = t ∨ Reach g.Edges t s) := by
  obtain ⟨x, hx⟩ := hs
  obtain ⟨y, hy⟩ := ht
  unfold CreatesCycle
  rw [hx, hy]
  by_cases hst : s = t
  · rw [if_pos hst]
    simp [hst]
  · rw [if_neg hst]
    constructor
    · intro h
      have hb : (dfsBackF it g.Edges t (dfsFuel g.Edges [s]) [s] []).getD false = true :=
        Except.ok.inj h
      exact Or.inr ((dfsBack_reaches it g.Edges s t).mp hb)
    · rintro (h | h)
      · exact absurd h hst
      · rw [(dfsBack_reaches it g.Edges s t).mpr h]

theorem createsCycle_ok (it : Iter K) (g : directed K T) {s t : K}
    (hs : g.HasVertex s) (ht : g.HasVertex t) :
    ∃ b, CreatesCycle it g s t = Except.ok b := by
  obtain ⟨x, hx⟩ := hs
  obtain ⟨y, hy⟩ := ht
  unfold CreatesCycle
  rw [hx, hy]
  by_cases hst : s = t
  · exact ⟨true, by rw [if_pos hst]⟩
  · exact ⟨_, by rw [if_neg hst]⟩

theorem createsCycle_false_iff (it : Iter K) (g : directed K T) {s t : K}
    (hs : g.HasVertex s) (ht : g.HasVertex t) :
    CreatesCycle it g s t = Except.ok false ↔ ¬ (s = t ∨ Reach g.Edges t s) := by
  obtain ⟨b, hb⟩ := createsCycle_ok it g hs ht
  have hiff := createsCycle_true_iff it g hs ht
  rw [hb] at hiff ⊢
  cases b with
  | true =>
    constructor
    · intro h
      exact absurd h (by simp)
    · intro h
      exact absurd (hiff.mp rfl) h
  | false =>
    constructor
    · intro _ hr
      exact absurd (hiff.mpr hr) (by simp)
    · intro _
      rfl

theorem createsCycle_err_source (it : Iter K) (g : directed K T) {s : K} (t : K)
    (hs : g.Vertex s = Except.error .vertexNotFound) :
    CreatesCycle it g s t = Except.error .vertexNotFound := by
  unfold CreatesCycle
  rw [hs]

theorem createsCycle_err_target (it : Iter K) (g : directed K T) {s t : K}
    (hs : g.HasVertex s) (ht : g.Vertex t = Except.error .vertexNotFound) :
    CreatesCycle it g s t = Except.error .vertexNotFound := by
  obtain ⟨x, hx⟩ := hs
  unfold CreatesCycle
  rw [hx, ht]

/-! ### Adding a non-cycle-closing edge keeps an edge list acyclic -/

theorem reach_append_edge {E : List (Edge K)} {e : Edge K} {a b : K}
    (h : Reach (E ++ [e]) a b) :
    Reach E a b ∨ (Reach E a e.source ∧ Reach E e.target b) := by
  induction h with
  | refl a => exact Or.inl (Reach.refl a)
  | step he hbc ih =>
    rcases List.mem_append.mp he with hE | hsing
    · rcases ih with h1 | ⟨h1, h2⟩
      · exact Or.inl (Reach.step hE h1)
      · exact Or.inr ⟨Reach.step hE h1, h2⟩
    · rw [List.mem_singleton] at hsing
      cases hsing
      rcases ih with h1 | ⟨h1, h2⟩
      · exact Or.inr ⟨Reach.refl _, h1⟩
      · exact Or.inr ⟨Reach.refl _, h2⟩

theorem reach_edge_self {E : List (Edge K)} {e : Edge K} (he : e ∈ E) :
    Reach E e.source e.target :=
  Reach.step (a := e.source) (b := e.target) he (Reach.refl e.target)

theorem acyclicEdges_append {E : List (Edge K)} {s t : K}
    (hA : AcyclicEdges E) (hst : ¬ s = t) (hns : ¬ Reach E t s) :
    AcyclicEdges (E ++ [⟨s, t⟩]) := by
  rintro ⟨e, heMem, hReach⟩
  rcases List.mem_append.mp heMem with hE | hsing
  · rcases reach_append_edge hReach with h1 | ⟨h1, h2⟩
    · exact hA ⟨e, hE, h1⟩
    · exact hns (Reach.trans h2 (Reach.trans (reach_edge_self hE) h1))
  · rw [List.mem_singleton] at hsing
    subst hsing
    rcases reach_append_edge hReach with h1 | ⟨h1, _⟩
    · exact hns h1
    · exact hns h1

theorem reach_of_subset {E F : List (Edge K)} (hsub : ∀ e, e ∈ E → e ∈ F) :
    HasCycle E → HasCycle F := by
  rintro ⟨e, he, hr⟩
  exact ⟨e, hsub e he, Reach.mono hsub hr⟩

theorem acyclicEdges_of_subset {E F : List (Edge K)}
    (hsub : ∀ e, e ∈ E → e ∈ F) (hA : AcyclicEdges F) : AcyclicEdges E :=
  fun h => hA (reach_of_subset hsub h)

/-! ### Structure of `AddEdge` results -/

theorem edgeAbsent_of_directed_edge (d : directed K T) {s t : K}
    (h : d.Edge s t = Except.error .edgeNotFound) : EdgeAbsent d s t := by
  unfold directed.Edge at h
  cases hse : d.store.Edge s t with
  | error e =>
    rw [hse] at h
    cases h
    exact hse
  | ok e =>
    rw [hse] at h
    cases hv1 : d.store.Vertex s with
    | error e1 =>
      rw [hv1] at h
      cases h
      rcases vertex_ok_or_notFound d s with ⟨x, hx⟩ | hx <;>
        rw [directed.Vertex] at hx <;> rw [hx] at hv1 <;> cases hv1
    | ok v1 =>
      rw [hv1] at h
      cases hv2 : d.store.Vertex t with
      | error e2 =>
        rw [hv2] at h
        cases h
        rcases vertex_ok_or_notFound d t with ⟨x, hx⟩ | hx <;>
          rw [directed.Vertex] at hx <;> rw [hx] at hv2 <;> cases hv2
      | ok v2 =>
        rw [hv2] at h
        cases h

/-- Case analysis of `directed.AddEdge`: either it fails and returns the graph
unchanged, or it commits exactly the one requested edge, in which case both
endpoints existed, the pair was absent, and — if cycle prevention is on — the
cycle check had returned `false`. -/
theorem addEdge_cases (d : directed K T) (it : Iter K) (s t : K) :
    ((d.AddEdge it s t).1 = d ∧ ∃ e, (d.AddEdge it s t).2 = some e) ∨
    (d.AddEdge it s t =
      (⟨d.hash, d.traits, ⟨d.store.vertices, d.store.edges ++ [((s, t), ⟨s, t⟩)]⟩⟩, none) ∧
     d.HasVertex s ∧ d.HasVertex t ∧ EdgeAbsent d s t ∧
     (d.traits.preventCycles = true → CreatesCycle it d s t = Except.ok false)) := by
  unfold directed.AddEdge
  cases hv1 : d.store.Vertex s with
  | error e1 => exact Or.inl ⟨rfl, _, rfl⟩
  | ok v1 =>
    cases hv2 : d.store.Vertex t with
    | error e2 => exact Or.inl ⟨rfl, _, rfl⟩
    | ok v2 =>
      have hvs : d.HasVertex s := ⟨v1, hv1⟩
      have hvt : d.HasVertex t := ⟨v2, hv2⟩
      cases he : d.Edge s t with
      | ok e0 => exact Or.inl ⟨rfl, _, rfl⟩
      | error e0 =>
        cases e0 with
        | edgeNotFound =>
          have habs : EdgeAbsent d s t := edgeAbsent_of_directed_edge d he
          have hcontains :
              (d.store.edges.map Prod.fst).contains (s, t) = false := by
            rcases Bool.eq_false_or_eq_true ((d.store.edges.map Prod.fst).contains (s, t))
              with h0 | h0
            · exact absurd h0 ((edgeAbsent_iff_not_contains d s t).mp habs)
            · exact h0
          have hs2 := (hasVertex_iff_contains d s).mp hvs
          have ht2 := (hasVertex_iff_contains d t).mp hvt
          have hstore : d.store.AddEdge s t ⟨s, t⟩ =
              Except.ok ⟨d.store.vertices, d.store.edges ++ [((s, t), ⟨s, t⟩)]⟩ := by
            unfold memoryStore.AddEdge
            rw [if_neg (not_not_intro hs2), if_neg (not_not_intro ht2),
              if_neg (fun hcon => Bool.false_ne_true (hcontains ▸ hcon))]
          by_cases hpc : d.traits.preventCycles = true
          · rw [if_pos hpc]
            obtain ⟨b, hb⟩ := createsCycle_ok it d hvs hvt
            rw [hb]
            cases b with
            | true => exact Or.inl ⟨rfl, _, rfl⟩
            | false =>
              rw [hstore]
              exact Or.inr ⟨rfl, hvs, hvt, habs, fun _ => rfl⟩
          · rw [if_neg hpc, hstore]
            exact Or.inr ⟨rfl, hvs, hvt, habs, fun h => absurd h hpc⟩
        | vertexNotFound => exact Or.inl ⟨rfl, _, rfl⟩
        | vertexAlreadyExists => exact Or.inl ⟨rfl, _, rfl⟩
        | edgeAlreadyExists => exact Or.inl ⟨rfl, _, rfl⟩
        | edgeCreatesCycle => exact Or.inl ⟨rfl, _, rfl⟩
        | vertexHasEdges => exact Or.inl ⟨rfl, _, rfl⟩
        | targetNotReachable => exact Or.inl ⟨rfl, _, rfl⟩

theorem store_addEdge_ok (d : directed K T) {s t : K}
    (hvs : d.HasVertex s) (hvt : d.HasVertex t) (habs : EdgeAbsent d s t) :
    d.store.AddEdge s t ⟨s, t⟩ =
      Except.ok ⟨d.store.vertices, d.store.edges ++ [((s, t), ⟨s, t⟩)]⟩ := by
  have hcontains : (d.store.edges.map Prod.fst).contains (s, t) = false := by
    rcases Bool.eq_false_or_eq_true ((d.store.edges.map Prod.fst).contains (s, t))
      with h0 | h0
    · exact absurd h0 ((edgeAbsent_iff_not_contains d s t).mp habs)
    · exact h0
  have hs2 := (hasVertex_iff_contains d s).mp hvs
  have ht2 := (hasVertex_iff_contains d t).mp hvt
  unfold memoryStore.AddEdge
  rw [if_neg (not_not_intro hs2), if_neg (not_not_intro ht2),
    if_neg (fun hcon => Bool.false_ne_true (hcontains ▸ hcon))]

/-- With cycle prevention on, both endpoints present and the pair absent,
`AddEdge` rejects a cycle-closing candidate with `ErrEdgeCreatesCycle` and
returns the graph unchanged. -/
theorem addEdge_rejects_cycle (d : directed K T) (it : Iter K) {s t : K}
    (hpc : d.traits.preventCycles = true)
    (hvs : d.HasVertex s) (hvt : d.HasVertex t) (habs : EdgeAbsent d s t)
    (hcyc : s = t ∨ Reach d.Edges t s) :
    d.AddEdge it s t = (d, some .edgeCreatesCycle) := by
  obtain ⟨v1, hv1⟩ := hvs
  obtain ⟨v2, hv2⟩ := hvt
  have hcc : CreatesCycle it d s t = Except.ok true :=
    (createsCycle_true_iff it d ⟨v1, hv1⟩ ⟨v2, hv2⟩).mpr hcyc
  unfold directed.AddEdge
  rw [show d.store.Vertex s = Except.ok v1 from hv1,
    show d.store.Vertex t = Except.ok v2 from hv2,
    directed_edge_notFound d habs, if_pos hpc, hcc]

/-- With cycle prevention on, both endpoints present and the pair absent,
`AddEdge` commits exactly the one requested edge when the candidate does not
close a cycle. -/
theorem addEdge_commits (d : directed K T) (it : Iter K) {s t : K}
    (hpc : d.traits.preventCycles = true)
    (hvs : d.HasVertex s) (hvt : d.HasVertex t) (habs : EdgeAbsent d s t)
    (hnc : ¬ (s = t ∨ Reach d.Edges t s)) :
    d.AddEdge it s t =
      (⟨d.hash, d.traits, ⟨d.store.vertices, d.store.edges ++ [((s, t), ⟨s, t⟩)]⟩⟩, none) := by
  obtain ⟨v1, hv1⟩ := hvs
  obtain ⟨v2, hv2⟩ := hvt
  have hcc : CreatesCycle it d s t = Except.ok false :=
    (createsCycle_false_iff it d ⟨v1, hv1⟩ ⟨v2, hv2⟩).mpr hnc
  unfold directed.AddEdge
  rw [show d.store.Vertex s = Except.ok v1 from hv1,
    show d.store.Vertex t = Except.ok v2 from hv2,
    directed_edge_notFound d habs, if_pos hpc, hcc,
    store_addEdge_ok d ⟨v1, hv1⟩ ⟨v2, hv2⟩ habs]

/-! ### Every operation preserves acyclicity of a cycle-preventing graph -/

theorem addVertex_shape (d : directed K T) (v : T) :
    ((d.AddVertex v).1).traits = d.traits ∧
    ((d.AddVertex v).1).store.edges = d.store.edges := by
  unfold directed.AddVertex memoryStore.AddVertex
  by_cases h : (d.store.vertices.map Prod.fst).contains (d.hash v) = true
  · rw [if_pos h]
    exact ⟨rfl, rfl⟩
  · rw [if_neg h]
    exact ⟨rfl, rfl⟩

theorem removeVertex_shape (d : directed K T) (v : K) :
    ((d.RemoveVertex v).1).traits = d.traits ∧
    ((d.RemoveVertex v).1).store.edges = d.store.edges := by
  unfold directed.RemoveVertex memoryStore.RemoveVertex
  by_cases h1 : d.store.edges.any (fun p => p.2.source = v || p.2.target = v) = true
  · rw [if_pos h1]
    exact ⟨rfl, rfl⟩
  · rw [if_neg h1]
    by_cases h2 : (d.store.vertices.map Prod.fst).contains v = true
    · rw [if_pos h2]
      exact ⟨rfl, rfl⟩
    · rw [if_neg h2]
      exact ⟨rfl, rfl⟩

theorem removeEdge_shape (d : directed K T) (s t : K) :
    ((d.RemoveEdge s t).1).traits = d.traits ∧
    ∀ p, p ∈ ((d.RemoveEdge s t).1).store.edges → p ∈ d.store.edges := by
  unfold directed.RemoveEdge
  cases he : d.Edge s t with
  | error e => exact ⟨rfl, fun p hp => hp⟩
  | ok e =>
    refine ⟨rfl, fun p hp => ?_⟩
    exact List.mem_of_mem_filter hp

theorem applyOp_preserve (it : Iter K) (g : directed K T) (op : Op K T)
    (hpc : g.traits.preventCycles = true) (hA : AcyclicEdges g.Edges) :
    (applyOp it g op).traits = g.traits ∧ AcyclicEdges (applyOp it g op).Edges := by
  cases op with
  | addVertex v =>
    obtain ⟨h1, h2⟩ := addVertex_shape g v
    refine ⟨h1, ?_⟩
    show AcyclicEdges ((applyOp it g (Op.addVertex v)).store.ListEdges)
    simp only [applyOp]
    unfold memoryStore.ListEdges
    rw [h2]
    exact hA
  | removeVertex v =>
    obtain ⟨h1, h2⟩ := removeVertex_shape g v
    refine ⟨h1, ?_⟩
    show AcyclicEdges ((applyOp it g (Op.removeVertex v)).store.ListEdges)
    simp only [applyOp]
    unfold memoryStore.ListEdges
    rw [h2]
    exact hA
  | removeEdge s t =>
    obtain ⟨h1, h2⟩ := removeEdge_shape g s t
    refine ⟨h1, ?_⟩
    refine acyclicEdges_of_subset ?_ hA
    intro e he
    unfold directed.Edges memoryStore.ListEdges at he ⊢
    rw [List.mem_map] at he ⊢
    obtain ⟨p, hp, rfl⟩ := he
    exact ⟨p, h2 p hp, rfl⟩
  | addEdge s t =>
    rcases addEdge_cases g it s t with ⟨h, _⟩ | ⟨heq, hvs, hvt, habs, hcc⟩
    · simp only [applyOp]
      rw [h]
      exact ⟨rfl, hA⟩
    · have hnc := (createsCycle_false_iff it g hvs hvt).mp (hcc hpc)
      rw [not_or] at hnc
      simp only [applyOp]
      rw [heq]
      refine ⟨rfl, ?_⟩
      show AcyclicEdges ((⟨g.store.vertices,
        g.store.edges ++ [((s, t), ⟨s, t⟩)]⟩ : memoryStore K T).ListEdges)
      unfold memoryStore.ListEdges
      rw [List.map_append]
      exact acyclicEdges_append hA hnc.1 hnc.2

theorem applyOps_preserve (it : Iter K) (ops : List (Op K T)) :
    ∀ g : directed K T, g.traits.preventCycles = true → AcyclicEdges g.Edges →
      (applyOps it g ops).traits = g.traits ∧ AcyclicEdges (applyOps it g ops).Edges := by
  induction ops with
  | nil => exact fun g _ hA => ⟨rfl, hA⟩
  | cons op rest ih =>
    intro g hpc hA
    obtain ⟨h1, h2⟩ := applyOp_preserve it g op hpc hA
    obtain ⟨h3, h4⟩ := ih (applyOp it g op) (h1 ▸ hpc) h2
    exact ⟨h3.trans h1, h4⟩

theorem new_graph_edges (hash : T → K) (options : List (Traits → Traits)) :
    (New hash options).Edges = [] := rfl

theorem acyclicEdges_nil : AcyclicEdges ([] : List (Edge K)) := by
  rintro ⟨e, he, _⟩
  exact absurd he (List.not_mem_nil e)

/-! ### The sort step: `segLE` is a total, transitive, antisymmetric order, so
the sorted list is unique and independent of the sorting algorithm -/

theorem string_eq_of_data {a b : String} (h : a.data = b.data) : a = b := by
  cases a
  cases b
  exact congrArg String.mk h

theorem segLE_total (a b : Seg) : segLE a b ∨ segLE b a := by
  rcases lt_trichotomy a.1.data b.1.data with h1 | h1 | h1
  · exact Or.inl (Or.inl (Or.inl h1))
  · have hfst : a.1 = b.1 := string_eq_of_data h1
    rcases lt_trichotomy a.2.data b.2.data with h2 | h2 | h2
    · exact Or.inl (Or.inl (Or.inr ⟨hfst, h2⟩))
    · have hsnd : a.2 = b.2 := string_eq_of_data h2
      exact Or.inl (Or.inr (Prod.ext hfst hsnd))
    · exact Or.inr (Or.inl (Or.inr ⟨hfst.symm, h2⟩))
  · exact Or.inr (Or.inl (Or.inl h1))

theorem segLess_trans {a b c : Seg} (h1 : segLess a b) (h2 : segLess b c) :
    segLess a c := by
  rcases h1 with h1 | ⟨h1e, h1l⟩
  · rcases h2 with h2 | ⟨h2e, _⟩
    · exact Or.inl (lt_trans h1 h2)
    · exact Or.inl (h2e ▸ h1)
  · rcases h2 with h2 | ⟨h2e, h2l⟩
    · exact Or.inl (h1e ▸ h2)
    · exact Or.inr ⟨h1e.trans h2e, lt_trans h1l h2l⟩

theorem segLess_irrefl (a : Seg) : ¬ segLess a a := by
  rintro (h | ⟨_, h⟩) <;> exact lt_irrefl _ h

theorem segLE_trans {a b c : Seg} (h1 : segLE a b) (h2 : segLE b c) : segLE a c := by
  rcases h1 with h1 | rfl
  · rcases h2 with h2 | rfl
    · exact Or.inl (segLess_trans h1 h2)
    · exact Or.inl h1
  · exact h2

theorem segLE_antisymm {a b : Seg} (h1 : segLE a b) (h2 : segLE b a) : a = b := by
  rcases h1 with h1 | rfl
  · rcases h2 with h2 | rfl
    · exact absurd (segLess_trans h1 h2) (segLess_irrefl a)
    · rfl
  · rfl

instance : IsTotal Seg segLE := ⟨segLE_total⟩

instance : IsTrans Seg segLE := ⟨fun _ _ _ => segLE_trans⟩

instance : IsAntisymm Seg segLE := ⟨fun _ _ => segLE_antisymm⟩

theorem sortSegments_perm (l : List Seg) : (sortSegments l).Perm l :=
  List.perm_insertionSort segLE l

theorem sortSegments_sorted (l : List Seg) : List.Sorted segLE (sortSegments l) :=
  List.sorted_insertionSort segLE l

theorem sortSegments_eq_of_perm {l₁ l₂ : List Seg} (h : l₁.Perm l₂) :
    sortSegments l₁ = sortSegments l₂ :=
  List.eq_of_perm_of_sorted
    ((sortSegments_perm l₁).trans (h.trans (sortSegments_perm l₂).symm))
    (sortSegments_sorted l₁) (sortSegments_sorted l₂)

/-! ### Structure of the construction phase of `calculate` -/

theorem hasVertex_iff_mem (d : directed K T) (v : K) :
    d.HasVertex v ↔ v ∈ d.store.vertices.map Prod.fst := by
  rw [hasVertex_iff_contains]
  exact List.elem_iff

theorem edgePresent_iff_mem (d : directed K T) (s t : K) :
    EdgePresent d s t ↔ (s, t) ∈ d.store.edges.map Prod.fst := by
  unfold EdgePresent memoryStore.Edge
  constructor
  · rintro ⟨e, he⟩
    cases hfind : d.store.edges.find? (fun p => p.1 = (s, t)) with
    | none => rw [hfind] at he; exact absurd he (by simp)
    | some pr =>
      have h2 := List.find?_some hfind
      exact List.mem_map.mpr ⟨pr, List.mem_of_find?_eq_some hfind, of_decide_eq_true h2⟩
  · intro hm
    obtain ⟨pr, hpr, heq⟩ := List.mem_map.mp hm
    have : (d.store.edges.find? (fun p => p.1 = (s, t))).isSome := by
      rw [List.find?_isSome]
      exact ⟨pr, hpr, by simp [heq]⟩
    obtain ⟨q, hq⟩ := Option.isSome_iff_exists.mp this
    exact ⟨q.2, by rw [hq]⟩

theorem hasVertex_of_append {g g2 : directed K T} {v : K}
    (hv : ∃ lv, g2.store.vertices = g.store.vertices ++ lv)
    (h : g.HasVertex v) : g2.HasVertex v := by
  obtain ⟨lv, hlv⟩ := hv
  rw [hasVertex_iff_mem] at h ⊢
  rw [hlv, List.map_append]
  exact List.mem_append_left _ h

theorem edgePresent_of_append {g g2 : directed K T} {s t : K}
    (he : ∃ le, g2.store.edges = g.store.edges ++ le)
    (h : EdgePresent g s t) : EdgePresent g2 s t := by
  obtain ⟨le, hle⟩ := he
  rw [edgePresent_iff_mem] at h ⊢
  rw [hle, List.map_append]
  exact List.mem_append_left _ h

theorem segDone_mono {g g2 : directed String String}
    (hv : ∃ lv, g2.store.vertices = g.store.vertices ++ lv)
    (he : ∃ le, g2.store.edges = g.store.edges ++ le)
    {seg : Seg} (h : SegDone g seg) : SegDone g2 seg :=
  ⟨hasVertex_of_append hv h.1, hasVertex_of_append hv h.2.1,
    edgePresent_of_append he h.2.2⟩

theorem edgePresent_of_directed_edge (d : directed K T) {s t : K} {e : Edge T}
    (h : d.Edge s t = Except.ok e) : EdgePresent d s t := by
  unfold directed.Edge at h
  cases hse : d.store.Edge s t with
  | ok e0 => exact ⟨e0, hse⟩
  | error e0 => rw [hse] at h; exact Except.noConfusion h

theorem addVertex_ok_shape (d : directed K T) (v : T) (g2 : directed K T)
    (h : d.AddVertex v = (g2, none)) :
    g2 = ⟨d.hash, d.traits, ⟨d.store.vertices ++ [(d.hash v, v)], d.store.edges⟩⟩ := by
  unfold directed.AddVertex memoryStore.AddVertex at h
  by_cases hc : (d.store.vertices.map Prod.fst).contains (d.hash v) = true
  · rw [if_pos hc] at h
    exact absurd (congrArg Prod.snd h) (by simp)
  · rw [if_neg hc] at h
    exact (congrArg Prod.fst h).symm

theorem ensureVertex_shape {g g2 : directed String String} {v : String}
    (h : ensureVertex g v = Except.ok g2) :
    g2.hash = g.hash ∧ g2.traits = g.traits ∧ g2.store.edges = g.store.edges ∧
    (∃ lv, g2.store.vertices = g.store.vertices ++ lv) := by
  unfold ensureVertex at h
  cases hv : g.Vertex v with
  | ok x =>
    rw [hv] at h
    cases h
    exact ⟨rfl, rfl, rfl, [], by simp⟩
  | error e =>
    rw [hv] at h
    cases hav : g.AddVertex v with
    | mk g1 r =>
      rw [hav] at h
      cases r with
      | none =>
        cases h
        rw [addVertex_ok_shape g v _ hav]
        exact ⟨rfl, rfl, rfl, [(g.hash v, v)], rfl⟩
      | some e2 => exact Except.noConfusion h

theorem ensureVertex_hasVertex {g g2 : directed String String} {v : String}
    (hh : g.hash = StringHash) (h : ensureVertex g v = Except.ok g2) :
    g2.HasVertex v := by
  unfold ensureVertex at h
  cases hv : g.Vertex v with
  | ok x =>
    rw [hv] at h
    cases h
    exact ⟨x, hv⟩
  | error e =>
    rw [hv] at h
    cases hav : g.AddVertex v with
    | mk g1 r =>
      rw [hav] at h
      cases r with
      | none =>
        cases h
        rw [addVertex_ok_shape g v _ hav, hasVertex_iff_mem]
        rw [hh]
        simp [StringHash]
      | some e2 => exact Except.noConfusion h

theorem addEdge_pair_none (d : directed K T) (it : Iter K) {s t : K}
    {g2 : directed K T} (h : d.AddEdge it s t = (g2, none)) :
    g2 = ⟨d.hash, d.traits, ⟨d.store.vertices, d.store.edges ++ [((s, t), ⟨s, t⟩)]⟩⟩ := by
  rcases addEdge_cases d it s t with ⟨_, e, h2⟩ | ⟨heq, _⟩
  · rw [h] at h2
    exact absurd h2 (by simp)
  · rw [h] at heq
    exact congrArg Prod.fst heq

theorem ensureEdge_shape {it : Iter String} {g g2 : directed String String}
    {s t : String} (h : ensureEdge it g s t = Except.ok g2) :
    g2.hash = g.hash ∧ g2.traits = g.traits ∧
    g2.store.vertices = g.store.vertices ∧
    (∃ le, g2.store.edges = g.store.edges ++ le) ∧ EdgePresent g2 s t := by
  unfold ensureEdge at h
  cases he : g.Edge s t with
  | ok e =>
    rw [he] at h
    cases h
    exact ⟨rfl, rfl, rfl, ⟨[], by simp⟩, edgePresent_of_directed_edge g he⟩
  | error e =>
    rw [he] at h
    cases hae : g.AddEdge it s t with
    | mk g1 r =>
      rw [hae] at h
      cases r with
      | none =>
        cases h
        rw [addEdge_pair_none g it hae]
        refine ⟨rfl, rfl, rfl, ⟨[((s, t), ⟨s, t⟩)], rfl⟩, ?_⟩
        rw [edgePresent_iff_mem]
        simp
      | some e2 => exact Except.noConfusion h

theorem buildStep_shape {it : Iter String} {g : directed String String} {seg : Seg}
    {g2 : directed String String} (h : buildStep it g seg = Except.ok g2) :
    g2.hash = g.hash ∧ g2.traits = g.traits ∧
    (∃ lv, g2.store.vertices = g.store.vertices ++ lv) ∧
    (∃ le, g2.store.edges = g.store.edges ++ le) := by
  unfold buildStep at h
  split at h
  · exact Except.noConfusion h
  next ga h1 =>
    split at h
    · exact Except.noConfusion h
    next gb h2 =>
      obtain ⟨ha1, ha2, ha3, lva, hva⟩ := ensureVertex_shape h1
      obtain ⟨hb1, hb2, hb3, lvb, hvb⟩ := ensureVertex_shape h2
      obtain ⟨hc1, hc2, hc3, ⟨lec, hec⟩, _⟩ := ensureEdge_shape h
      refine ⟨hc1.trans (hb1.trans ha1), hc2.trans (hb2.trans ha2), ?_, ?_⟩
      · exact ⟨lva ++ lvb, by rw [hc3, hvb, hva, List.append_assoc]⟩
      · exact ⟨lec, by rw [hec, hb3, ha3]⟩

theorem buildStep_done {it : Iter String} {g : directed String String} {seg : Seg}
    {g2 : directed String String} (hh : g.hash = StringHash)
    (h : buildStep it g seg = Except.ok g2) : SegDone g2 seg := by
  unfold buildStep at h
  split at h
  · exact Except.noConfusion h
  next ga h1 =>
    split at h
    · exact Except.noConfusion h
    next gb h2 =>
      obtain ⟨ha1, _, _, hva⟩ := ensureVertex_shape h1
      obtain ⟨hb1, _, _, hvb⟩ := ensureVertex_shape h2
      obtain ⟨_, _, hc3, hec, hpres⟩ := ensureEdge_shape h
      have hs1 : ga.HasVertex seg.1 := ensureVertex_hasVertex hh h1
      have hs2 : gb.HasVertex seg.2 := ensureVertex_hasVertex (ha1.trans hh) h2
      have hs1b : gb.HasVertex seg.1 := hasVertex_of_append hvb hs1
      refine ⟨?_, ?_, hpres⟩
      · exact hasVertex_of_append ⟨[], by rw [hc3, List.append_nil]⟩ hs1b
      · exact hasVertex_of_append ⟨[], by rw [hc3, List.append_nil]⟩ hs2

theorem buildStep_of_done {it : Iter String} {g : directed String String} {seg : Seg}
    (hd : SegDone g seg) : buildStep it g seg = Except.ok g := by
  obtain ⟨⟨x1, hx1⟩, ⟨x2, hx2⟩, ⟨e, hee⟩⟩ := hd
  have hedge : g.Edge seg.1 seg.2 = Except.ok ⟨x1, x2⟩ := by
    unfold directed.Edge
    rw [hee, show g.store.Vertex seg.1 = Except.ok x1 from hx1,
      show g.store.Vertex seg.2 = Except.ok x2 from hx2]
  have h1 : ensureVertex g seg.1 = Except.ok g := by
    unfold ensureVertex
    rw [hx1]
  have h2 : ensureVertex g seg.2 = Except.ok g := by
    unfold ensureVertex
    rw [hx2]
  have h3 : ensureEdge it g seg.1 seg.2 = Except.ok g := by
    unfold ensureEdge
    rw [hedge]
  unfold buildStep
  simp only [h1, h2, h3]

theorem buildGraph_shape (it : Iter String) :
    ∀ (l : List Seg) (g g2 : directed String String),
      buildGraph it l g = Except.ok g2 →
      g2.hash = g.hash ∧ g2.traits = g.traits ∧
      (∃ lv, g2.store.vertices = g.store.vertices ++ lv) ∧
      (∃ le, g2.store.edges = g.store.edges ++ le) := by
  intro l
  induction l with
  | nil =>
    intro g g2 h
    cases h
    exact ⟨rfl, rfl, ⟨[], by simp⟩, ⟨[], by simp⟩⟩
  | cons seg rest ih =>
    intro g g2 h
    unfold buildGraph at h
    split at h
    · exact Except.noConfusion h
    next ga h1 =>
      obtain ⟨ha1, ha2, ⟨lva, hva⟩, ⟨lea, hea⟩⟩ := buildStep_shape h1
      obtain ⟨hb1, hb2, ⟨lvb, hvb⟩, ⟨leb, heb⟩⟩ := ih ga g2 h
      refine ⟨hb1.trans ha1, hb2.trans ha2, ?_, ?_⟩
      · exact ⟨lva ++ lvb, by rw [hvb, hva, List.append_assoc]⟩
      · exact ⟨lea ++ leb, by rw [heb, hea, List.append_assoc]⟩

theorem buildGraph_done (it : Iter String) :
    ∀ (l : List Seg) (g g2 : directed String String), g.hash = StringHash →
      buildGraph it l g = Except.ok g2 → ∀ p, p ∈ l → SegDone g2 p := by
  intro l
  induction l with
  | nil => intro g g2 _ _ p hp; exact absurd hp (List.not_mem_nil p)
  | cons seg rest ih =>
    intro g g2 hh h p hp
    unfold buildGraph at h
    split at h
    · exact Except.noConfusion h
    next ga h1 =>
      rcases List.mem_cons.mp hp with rfl | hp
      · obtain ⟨_, _, hva, hea⟩ := buildGraph_shape it rest ga g2 h
        exact segDone_mono hva hea (buildStep_done hh h1)
      · obtain ⟨ha1, _, _, _⟩ := buildStep_shape h1
        exact ih ga g2 (ha1.trans hh) h p hp

/-! ### The construction phase and the cycle check do not depend on the map
iteration order; the forward traversal does not either when every vertex has
at most one outgoing edge -/

theorem dfsBack_getD_eq (it1 it2 : Iter K) (E : List (Edge K)) (s t : K) :
    (dfsBackF it1 E t (dfsFuel E [s]) [s] []).getD false =
    (dfsBackF it2 E t (dfsFuel E [s]) [s] []).getD false := by
  by_cases hr : Reach E t s
  · rw [(dfsBack_reaches it1 E s t).mpr hr, (dfsBack_reaches it2 E s t).mpr hr]
  · have e1 : (dfsBackF it1 E t (dfsFuel E [s]) [s] []).getD false = false := by
      rcases Bool.eq_false_or_eq_true
        ((dfsBackF it1 E t (dfsFuel E [s]) [s] []).getD false) with h | h
      · exact absurd ((dfsBack_reaches it1 E s t).mp h) hr
      · exact h
    have e2 : (dfsBackF it2 E t (dfsFuel E [s]) [s] []).getD false = false := by
      rcases Bool.eq_false_or_eq_true
        ((dfsBackF it2 E t (dfsFuel E [s]) [s] []).getD false) with h | h
      · exact absurd ((dfsBack_reaches it2 E s t).mp h) hr
      · exact h
    rw [e1, e2]

theorem createsCycle_it_indep (it1 it2 : Iter K) (g : directed K T) (s t : K) :
    CreatesCycle it1 g s t = CreatesCycle it2 g s t := by
  unfold CreatesCycle
  cases g.Vertex s with
  | error e => rfl
  | ok x =>
    cases g.Vertex t with
    | error e => rfl
    | ok y =>
      by_cases hst : s = t
      · rw [if_pos hst, if_pos hst]
      · rw [if_neg hst, if_neg hst, dfsBack_getD_eq it1 it2]

theorem addEdge_it_indep (d : directed K T) (it1 it2 : Iter K) (s t : K) :
    d.AddEdge it1 s t = d.AddEdge it2 s t := by
  unfold directed.AddEdge
  rw [createsCycle_it_indep it1 it2]

theorem ensureEdge_it_indep (it1 it2 : Iter String) :
    ∀ (g : directed String String) (s t : String),
      ensureEdge it1 g s t = ensureEdge it2 g s t := by
  intro g s t
  unfold ensureEdge
  rw [addEdge_it_indep g it1 it2]

theorem buildStep_it_indep (it1 it2 : Iter String) (g : directed String String)
    (seg : Seg) : buildStep it1 g seg = buildStep it2 g seg := by
  unfold buildStep
  simp only [ensureEdge_it_indep it1 it2]

theorem buildGraph_it_indep (it1 it2 : Iter String) :
    ∀ (l : List Seg) (g : directed String String),
      buildGraph it1 l g = buildGraph it2 l g := by
  intro l
  induction l with
  | nil => intro g; rfl
  | cons seg rest ih =>
    intro g
    unfold buildGraph
    rw [buildStep_it_indep it1 it2 g seg]
    cases buildStep it2 g seg with
    | error e => rfl
    | ok ga => exact ih ga

theorem iter_f_short (it : Iter K) : ∀ {l : List K}, l.length ≤ 1 → it.f l = l
  | [], _ => (it.perm []).eq_nil
  | [a], _ => List.perm_singleton.mp (it.perm [a])

theorem dfsWalkF_it_indep (it1 it2 : Iter K) (E : List (Edge K))
    (hdeg : ∀ v, (adjKeys E v).length ≤ 1) :
    ∀ (fuel : Nat) (stack visited : List K),
      dfsWalkF it1 E fuel stack visited = dfsWalkF it2 E fuel stack visited := by
  intro fuel
  induction fuel with
  | zero => intro stack visited; rfl
  | succ fuel ih =>
    intro stack visited
    match stack with
    | [] => rfl
    | v :: rest =>
      rw [dfsWalkF, dfsWalkF]
      by_cases hv : v ∈ visited
      · rw [if_pos hv, if_pos hv]
        exact ih rest visited
      · rw [if_neg hv, if_neg hv, iter_f_short it1 (hdeg v), iter_f_short it2 (hdeg v),
          ih ((adjKeys E v).reverse ++ rest) (v :: visited)]

theorem DFS_it_indep (it1 it2 : Iter String) (g : directed String String)
    (start : String) (hdeg : ∀ v, (adjKeys g.Edges v).length ≤ 1) :
    DFS it1 g start = DFS it2 g start := by
  unfold DFS
  by_cases hs : start ∈ g.store.ListVertices
  · rw [if_pos hs, if_pos hs,
      dfsWalkF_it_indep it1 it2 g.Edges hdeg (dfsFuel g.Edges [start]) [start] []]
  · rw [if_neg hs, if_neg hs]

theorem runsFold_it_indep (it1 it2 : Iter String) (g : directed String String)
    (hdeg : ∀ v, (adjKeys g.Edges v).length ≤ 1) :
    ∀ (l : List Seg) (best : List String),
      runsFold it1 g l best = runsFold it2 g l best := by
  intro l
  induction l with
  | nil => intro best; rfl
  | cons seg rest ih =>
    intro best
    unfold runsFold
    rw [DFS_it_indep it1 it2 g seg.1 hdeg]
    exact ih _

/-- The outcome of `calculate` — including any error — does not depend on the
map iteration order whenever every vertex of the constructed graph has at
most one outgoing edge. -/
theorem calculate_det_of_outdeg (ctx : Bool) (it1 it2 : Iter String)
    (segments : List Seg)
    (hdeg : ∀ g, buildGraph idIter (sortSegments segments) initialGraph = Except.ok g →
      ∀ v, (adjKeys g.Edges v).length ≤ 1) :
    calculate ctx it1 segments = calculate ctx it2 segments := by
  unfold calculate
  rw [buildGraph_it_indep it1 idIter (sortSegments segments) initialGraph,
    buildGraph_it_indep it2 idIter (sortSegments segments) initialGraph]
  cases hb : buildGraph idIter (sortSegments segments) initialGraph with
  | error e => rfl
  | ok g =>
    dsimp only
    rw [runsFold_it_indep it1 it2 g (hdeg g hb) (sortSegments segments) []]

/-! ### The traversal stage of `calculate` never fails -/

theorem mem_listVertices_iff (d : directed K T) (v : K) :
    v ∈ d.store.ListVertices ↔ d.HasVertex v := by
  rw [hasVertex_iff_mem]
  exact Iff.rfl

theorem DFS_ok_of_hasVertex {it : Iter String} {g : directed String String}
    {v : String} (h : g.HasVertex v) : ∃ l, DFS it g v = Except.ok l := by
  unfold DFS
  rw [if_pos ((mem_listVertices_iff g v).mpr h)]
  exact ⟨_, rfl⟩

/-! ### Duplicate segments change neither the graph nor the result -/

theorem segLE_refl (a : Seg) : segLE a a := Or.inr rfl

theorem sortSegments_append_dup {s : List Seg} {p : Seg} (hp : p ∈ s) :
    ∃ l₁ l₂, sortSegments s = l₁ ++ p :: l₂ ∧
      sortSegments (s ++ [p]) = l₁ ++ p :: p :: l₂ := by
  have hps : p ∈ sortSegments s := (sortSegments_perm s).mem_iff.mpr hp
  obtain ⟨l₁, l₂, hsplit⟩ := List.append_of_mem hps
  refine ⟨l₁, l₂, hsplit, ?_⟩
  have hperm : (sortSegments (s ++ [p])).Perm (l₁ ++ p :: p :: l₂) := by
    have h1 : (sortSegments (s ++ [p])).Perm (sortSegments s ++ [p]) :=
      (sortSegments_perm (s ++ [p])).trans
        ((sortSegments_perm s).symm.append_right [p])
    rw [hsplit] at h1
    refine h1.trans ?_
    rw [List.append_assoc]
    refine List.Perm.append_left l₁ ?_
    have : (l₂ ++ [p]).Perm (p :: l₂) := List.perm_append_singleton p l₂
    exact (List.Perm.cons p this)
  have hs0 : List.Sorted segLE (l₁ ++ p :: l₂) := hsplit ▸ sortSegments_sorted s
  have hs1 : List.Sorted segLE (l₁ ++ p :: p :: l₂) := by
    rw [List.Sorted, List.pairwise_append] at hs0 ⊢
    obtain ⟨hpl₁, hptail, hcross⟩ := hs0
    rw [List.pairwise_cons] at hptail
    obtain ⟨hpfirst, hpl₂⟩ := hptail
    refine ⟨hpl₁, ?_, ?_⟩
    · rw [List.pairwise_cons]
      refine ⟨?_, ?_⟩
      · intro b hb
        rcases List.mem_cons.mp hb with hbp | hb
        · rw [hbp]
          exact segLE_refl p
        · exact hpfirst b hb
      · rw [List.pairwise_cons]
        exact ⟨hpfirst, hpl₂⟩
    · intro a ha b hb
      rcases List.mem_cons.mp hb with hbp | hb
      · rw [hbp]
        exact hcross a ha p (List.mem_cons_self p l₂)
      · exact hcross a ha b hb
  exact List.eq_of_perm_of_sorted hperm (sortSegments_sorted (s ++ [p])) hs1

theorem buildGraph_append_eq (it : Iter String) :
    ∀ (l₁ l₂ : List Seg) (g : directed String String),
      buildGraph it (l₁ ++ l₂) g =
        (match buildGraph it l₁ g with
          | .error e => .error e
          | .ok g2 => buildGraph it l₂ g2) := by
  intro l₁
  induction l₁ with
  | nil => intro l₂ g; rfl
  | cons seg rest ih =>
    intro l₂ g
    show (match buildStep it g seg with
        | Except.error e => Except.error e
        | Except.ok ga => buildGraph it (rest ++ l₂) ga) =
      (match (match buildStep it g seg with
          | Except.error e => Except.error e
          | Except.ok ga => buildGraph it rest ga) with
        | Except.error e => Except.error e
        | Except.ok g2 => buildGraph it l₂ g2)
    cases buildStep it g seg with
    | error e => rfl
    | ok ga => exact ih l₂ ga

theorem buildStep_self {it : Iter String} {g g1 : directed String String} {p : Seg}
    (hh : g.hash = StringHash) (h : buildStep it g p = Except.ok g1) :
    buildStep it g1 p = Except.ok g1 :=
  buildStep_of_done (buildStep_done hh h)

theorem buildGraph_dup (it : Iter String) {p : Seg} (l₂ : List Seg)
    {g : directed String String} (hh : g.hash = StringHash) :
    buildGraph it (p :: p :: l₂) g = buildGraph it (p :: l₂) g := by
  show (match buildStep it g p with
      | Except.error e => Except.error e
      | Except.ok ga => buildGraph it (p :: l₂) ga) =
    (match buildStep it g p with
      | Except.error e => Except.error e
      | Except.ok ga => buildGraph it l₂ ga)
  cases h1 : buildStep it g p with
  | error e => rfl
  | ok ga =>
    show (match buildStep it ga p with
        | Except.error e => Except.error e
        | Except.ok gb => buildGraph it l₂ gb) = buildGraph it l₂ ga
    rw [buildStep_self hh h1]

theorem runsFold_append (it : Iter String) (g : directed String String) :
    ∀ (l₁ l₂ : List Seg) (best : List String),
      runsFold it g (l₁ ++ l₂) best = runsFold it g l₂ (runsFold it g l₁ best) := by
  intro l₁
  induction l₁ with
  | nil => intro l₂ best; rfl
  | cons seg rest ih =>
    intro l₂ best
    simp only [runsFold]
    exact ih l₂ _

theorem runsFold_dup (it : Iter String) (g : directed String String) (p : Seg)
    (l₂ : List Seg) (best : List String) :
    runsFold it g (p :: p :: l₂) best = runsFold it g (p :: l₂) best := by
  simp only [runsFold]
  generalize (match DFS it g p.1 with
    | Except.ok l => l
    | Except.error _ => ([] : List String)) = inner
  congr 1
  by_cases h : best.length < inner.length
  · rw [if_pos h, if_neg (lt_irrefl inner.length)]
  · rw [if_neg h, if_neg h]

theorem calculate_eq_of_perm (ctx : Bool) (it : Iter String) {s1 s2 : List Seg}
    (h : s1.Perm s2) : calculate ctx it s1 = calculate ctx it s2 := by
  unfold calculate
  rw [sortSegments_eq_of_perm h]

theorem calculate_append_dup (ctx : Bool) (it : Iter String) {s : List Seg}
    {p : Seg} (hp : p ∈ s) :
    (calculate ctx it (s ++ [p])).1 = (calculate ctx it s).1 ∧
    buildGraph it (sortSegments (s ++ [p])) initialGraph =
      buildGraph it (sortSegments s) initialGraph := by
  obtain ⟨l₁, l₂, h1, h2⟩ := sortSegments_append_dup hp
  have hbuild : buildGraph it (sortSegments (s ++ [p])) initialGraph =
      buildGraph it (sortSegments s) initialGraph := by
    rw [h1, h2, buildGraph_append_eq, buildGraph_append_eq]
    cases hm : buildGraph it l₁ initialGraph with
    | error e => rfl
    | ok gm =>
      obtain ⟨hh, _, _, _⟩ := buildGraph_shape it l₁ initialGraph gm hm
      exact buildGraph_dup it l₂ hh
  refine ⟨?_, hbuild⟩
  unfold calculate
  rw [hbuild]
  cases hb : buildGraph it (sortSegments s) initialGraph with
  | error e => rfl
  | ok g =>
    dsimp only
    rw [h1, h2, runsFold_append it g l₁ (p :: p :: l₂) [],
      runsFold_append it g l₁ (p :: l₂) [], runsFold_dup]

theorem calculate_dup_free (ctx : Bool) (it : Iter String) :
    ∀ (dups s s2 : List Seg), (∀ q, q ∈ dups → q ∈ s) → s2.Perm (s ++ dups) →
      (calculate ctx it s2).1 = (calculate ctx it s).1 ∧
      buildGraph it (sortSegments s2) initialGraph =
        buildGraph it (sortSegments s) initialGraph := by
  intro dups
  induction dups with
  | nil =>
    intro s s2 _ hperm
    rw [List.append_nil] at hperm
    have heq := calculate_eq_of_perm ctx it hperm
    exact ⟨by rw [heq], by rw [sortSegments_eq_of_perm hperm]⟩
  | cons d ds ih =>
    intro s s2 hmem hperm
    have hperm2 : s2.Perm ((s ++ [d]) ++ ds) := by
      refine hperm.trans ?_
      rw [← List.append_cons]
    obtain ⟨ih1, ih2⟩ := ih (s ++ [d]) s2
      (fun q hq => List.mem_append_left [d] (hmem q (List.mem_cons_of_mem d hq)))
      hperm2
    obtain ⟨hd1, hd2⟩ := calculate_append_dup ctx it (hmem d (List.mem_cons_self d ds))
    exact ⟨ih1.trans hd1, ih2.trans hd2⟩

theorem outdeg_le_one_of_pairwise {E : List (Edge K)}
    (h : List.Pairwise (fun e1 e2 => ¬ e1.source = e2.source) E) :
    ∀ v, (adjKeys E v).length ≤ 1 := by
  intro v
  unfold adjKeys
  have hsub : (E.filter (fun e => e.source = v)).Pairwise
      (fun e1 e2 => ¬ e1.source = e2.source) :=
    List.Pairwise.sublist (List.filter_sublist E) h
  have hlen : (E.filter (fun e => e.source = v)).length ≤ 1 := by
    cases hfl : E.filter (fun e => e.source = v) with
    | nil => simp
    | cons a rest =>
      cases rest with
      | nil => simp
      | cons b rest2 =>
        exfalso
        rw [hfl] at hsub
        have hab := (List.pairwise_cons.mp hsub).1 b (List.mem_cons_self b rest2)
        have ha : a ∈ E.filter (fun e => e.source = v) := by
          rw [hfl]
          exact List.mem_cons_self a (b :: rest2)
        have hb : b ∈ E.filter (fun e => e.source = v) := by
          rw [hfl]
          exact List.mem_cons_of_mem a (List.mem_cons_self b rest2)
        have hav : a.source = v := of_decide_eq_true (List.mem_filter.mp ha).2
        have hbv : b.source = v := of_decide_eq_true (List.mem_filter.mp hb).2
        exact hab (hav.trans hbv.symm)
  calc ((E.filter (fun e => e.source = v)).map (fun e => e.target)).dedup.length
      ≤ ((E.filter (fun e => e.source = v)).map (fun e => e.target)).length :=
        (List.dedup_sublist _).length_le
    _ = (E.filter (fun e => e.source = v)).length := List.length_map _ _
    _ ≤ 1 := hlen

/-! ## The claims -/

/-- C1: every state reachable from a graph created with the `PreventCycles`
trait by any sequence of `AddVertex`, `AddEdge`, `RemoveVertex` and
`RemoveEdge` operations has an acyclic edge list; moreover, at any such
state, `AddEdge` rejects with `ErrEdgeCreatesCycle` exactly those candidate
edges (with existing endpoints, the pair not yet present) whose source equals
the target or to whose source a directed path from the target already runs,
and otherwise commits the edge. -/
theorem claim_C1_prevent_cycles_invariant :
    ∀ {K T : Type} [DecidableEq K] (it : Iter K) (hash : T → K)
      (opts : List (Traits → Traits)) (ops : List (Op K T)) (g : directed K T),
      g = applyOps it (New hash opts) ops →
      (New hash opts).traits.preventCycles = true →
      AcyclicEdges g.Edges ∧
      ∀ s t : K, g.HasVertex s → g.HasVertex t → EdgeAbsent g s t →
        (((g.AddEdge it s t).2 = some GErr.edgeCreatesCycle) ↔
          (s = t ∨ Reach g.Edges t s)) ∧
        (¬ (s = t ∨ Reach g.Edges t s) →
          (g.AddEdge it s t).2 = none ∧
          (g.AddEdge it s t).1.Edges = g.Edges ++ [⟨s, t⟩]) := by
  intro K T instK it hash opts ops g hg hpc
  subst hg
  obtain ⟨htr, hacy⟩ := applyOps_preserve it ops (New hash opts) hpc
    (by rw [new_graph_edges]; exact acyclicEdges_nil)
  have hpc2 : (applyOps it (New hash opts) ops).traits.preventCycles = true := by
    rw [htr]
    exact hpc
  refine ⟨hacy, ?_⟩
  intro s t hvs hvt habs
  constructor
  · constructor
    · intro h2
      by_cases hcyc : s = t ∨ Reach (applyOps it (New hash opts) ops).Edges t s
      · exact hcyc
      · rw [addEdge_commits _ it hpc2 hvs hvt habs hcyc] at h2
        exact absurd h2 (by simp)
    · intro hcyc
      rw [addEdge_rejects_cycle _ it hpc2 hvs hvt habs hcyc]
  · intro hnc
    rw [addEdge_commits _ it hpc2 hvs hvt habs hnc]
    refine ⟨rfl, ?_⟩
    show (⟨(applyOps it (New hash opts) ops).store.vertices,
      (applyOps it (New hash opts) ops).store.edges ++
        [((s, t), ⟨s, t⟩)]⟩ : memoryStore K T).ListEdges = _
    unfold directed.Edges memoryStore.ListEdges
    rw [List.map_append]
    rfl

/-- Closed instance of C1: after the concrete operation sequence
`exampleOps` the graph is acyclic, and adding the cycle-closing edge B→A at
that state is rejected with `ErrEdgeCreatesCycle`. -/
theorem claim_C1_witness :
    AcyclicEdges exampleGraph.Edges ∧
    (exampleGraph.AddEdge idIter "B" "A").2 = some GErr.edgeCreatesCycle := by
  have h := claim_C1_prevent_cycles_invariant idIter StringHash
    [Directed, PreventCycles] exampleOps exampleGraph rfl rfl
  refine ⟨h.1, ?_⟩
  exact (h.2 "B" "A" ⟨"B", rfl⟩ ⟨"A", rfl⟩ rfl).1.mpr
    (Or.inr (Reach.single (by decide)))

/-- C2: `CreatesCycle` returns `ok true` exactly when the candidate edge is a
self-loop or a directed path from the target back to the source already
exists, and fails with the not-found error when either vertex is absent;
being a pure function of the graph, it cannot mutate it. -/
theorem claim_C2_creates_cycle_correct {K T : Type} [DecidableEq K]
    (it : Iter K) (g : directed K T) (s t : K) :
    (g.HasVertex s → g.HasVertex t →
      (CreatesCycle it g s t = Except.ok true ↔ (s = t ∨ Reach g.Edges t s))) ∧
    ((¬ g.HasVertex s ∨ ¬ g.HasVertex t) →
      CreatesCycle it g s t = Except.error GErr.vertexNotFound) := by
  refine ⟨fun hs ht => createsCycle_true_iff it g hs ht, ?_⟩
  rintro (hn | hn)
  · rcases vertex_ok_or_notFound g s with hx | hx
    · exact absurd hx hn
    · exact createsCycle_err_source it g t hx
  · rcases vertex_ok_or_notFound g s with ⟨x, hx⟩ | hx
    · rcases vertex_ok_or_notFound g t with hy | hy
      · exact absurd hy hn
      · exact createsCycle_err_target it g ⟨x, hx⟩ hy
    · exact createsCycle_err_source it g t hx

/-- Closed instance of C2: on the concrete graph with edge A→B, the check for
the candidate B→A reports a cycle, and a missing vertex yields the not-found
error. -/
theorem claim_C2_witness :
    CreatesCycle idIter exampleGraph "B" "A" = Except.ok true ∧
    CreatesCycle idIter exampleGraph "A" "Z" = Except.error GErr.vertexNotFound := by
  constructor
  · exact (claim_C2_creates_cycle_correct idIter exampleGraph "B" "A").1
      ⟨"B", rfl⟩ ⟨"A", rfl⟩ |>.mpr (Or.inr (Reach.single (by decide)))
  · refine (claim_C2_creates_cycle_correct idIter exampleGraph "A" "Z").2 (Or.inr ?_)
    rintro ⟨x, hx⟩
    have hz : exampleGraph.Vertex "Z" = Except.error GErr.vertexNotFound := rfl
    rw [hz] at hx
    exact Except.noConfusion hx

/-- C3: with cycle prevention active, `AddEdge` on a cycle-closing candidate
(existing endpoints, pair absent) fails with `ErrEdgeCreatesCycle` and
returns the graph — hence the store — completely unchanged; and whenever
`AddEdge` succeeds it commits exactly the one requested edge, leaving the
vertex map untouched. -/
theorem claim_C3_addedge_no_partial_mutation {K T : Type} [DecidableEq K]
    (it : Iter K) (g : directed K T) (s t : K) :
    (g.traits.preventCycles = true → g.HasVertex s → g.HasVertex t →
      EdgeAbsent g s t → (s = t ∨ Reach g.Edges t s) →
      g.AddEdge it s t = (g, some GErr.edgeCreatesCycle)) ∧
    (∀ g2, g.AddEdge it s t = (g2, none) →
      g2.store.edges = g.store.edges ++ [((s, t), ⟨s, t⟩)] ∧
      g2.store.vertices = g.store.vertices) := by
  constructor
  · intro hpc hvs hvt habs hcyc
    exact addEdge_rejects_cycle g it hpc hvs hvt habs hcyc
  · intro g2 h
    rw [addEdge_pair_none g it h]
    exact ⟨rfl, rfl⟩

/-- Closed instance of C3: on the concrete graph with edge A→B, adding B→A is
rejected with `ErrEdgeCreatesCycle` and the returned graph is the very same
state. -/
theorem claim_C3_witness :
    exampleGraph.AddEdge idIter "B" "A" = (exampleGraph, some GErr.edgeCreatesCycle) :=
  (claim_C3_addedge_no_partial_mutation idIter exampleGraph "B" "A").1
    rfl ⟨"B", rfl⟩ ⟨"A", rfl⟩ rfl (Or.inr (Reach.single (by decide)))

/-- C4: on the segment list IND→EWR, SFO→ATL, GSO→IND, ATL→GSO the
synthesizer returns the full path SFO, ATL, GSO, IND, EWR and no error —
for every map iteration order the runtime may choose. -/
theorem claim_C4_four_segment_chain (ctx : Bool) (it : Iter String) :
    (calculate ctx it [("IND", "EWR"), ("SFO", "ATL"), ("GSO", "IND"), ("ATL", "GSO")]).1 =
      Except.ok ["SFO", "ATL", "GSO", "IND", "EWR"] := by
  have hdeg : ∀ g, buildGraph idIter
      (sortSegments [("IND", "EWR"), ("SFO", "ATL"), ("GSO", "IND"), ("ATL", "GSO")])
      initialGraph = Except.ok g → ∀ v, (adjKeys g.Edges v).length ≤ 1 := by
    intro g hg
    have hg2 : (Except.ok (⟨StringHash, ⟨true, true, true⟩,
        ⟨[("ATL", "ATL"), ("GSO", "GSO"), ("IND", "IND"), ("EWR", "EWR"), ("SFO", "SFO")],
         [(("ATL", "GSO"), ⟨"ATL", "GSO"⟩), (("GSO", "IND"), ⟨"GSO", "IND"⟩),
          (("IND", "EWR"), ⟨"IND", "EWR"⟩), (("SFO", "ATL"), ⟨"SFO", "ATL"⟩)]⟩⟩ :
        directed String String) : Except GErr (directed String String)) = Except.ok g := hg
    cases hg2
    exact outdeg_le_one_of_pairwise (by decide)
  rw [calculate_det_of_outdeg ctx it idIter _ hdeg]
  rfl

/-- C5: the claim is refuted by the code — `calculate` never consults its
context argument, so its outcome is identical for a live and for an
already-cancelled/expired context, and on a cancelled context it still
returns the computed path instead of any timeout error. -/
theorem claim_C5_context_never_checked :
    (∀ (it : Iter String) (segments : List Seg),
      (calculate true it segments).1 = (calculate false it segments).1) ∧
    (calculate true idIter [("SFO", "EWR")]).1 = Except.ok ["SFO", "EWR"] :=
  ⟨fun _ _ => rfl, rfl⟩

/-- C6: every error actually encountered during synthesis is returned to the
caller — a construction-phase error aborts `calculate` with exactly that
error — and the per-source DFS stage can never fail, because every DFS start
is a segment source whose vertex the construction phase inserted; hence the
`println(err)` branch that would swallow a DFS error is unreachable and no
error is ever logged or masked. -/
theorem claim_C6_errors_surfaced (ctx : Bool) (it : Iter String)
    (segments : List Seg) :
    (∀ e, buildGraph it (sortSegments segments) initialGraph = Except.error e →
      (calculate ctx it segments).1 = Except.error e) ∧
    (∀ g, buildGraph it (sortSegments segments) initialGraph = Except.ok g →
      ∀ p, p ∈ sortSegments segments → ∃ l, DFS it g p.1 = Except.ok l) := by
  constructor
  · intro e he
    unfold calculate
    rw [he]
  · intro g hg p hp
    exact DFS_ok_of_hasVertex
      (buildGraph_done it (sortSegments segments) initialGraph g rfl hg p hp).1

/-- Closed instance of C6: the self-loop segment A→A makes the construction
phase fail with `ErrEdgeCreatesCycle`, and `calculate` returns exactly that
error. -/
theorem claim_C6_witness :
    (calculate false idIter [("A", "A")]).1 = Except.error GErr.edgeCreatesCycle :=
  (claim_C6_errors_surfaced false idIter [("A", "A")]).1 GErr.edgeCreatesCycle rfl

/-- C7: inserting additional copies of segments already present — in any
positions — neither errors nor changes the constructed graph nor the chosen
longest path: `calculate` returns the same result on the duplicated list as
on the original. -/
theorem claim_C7_duplicate_segments (ctx : Bool) (it : Iter String)
    (s dups s2 : List Seg) (hmem : ∀ q, q ∈ dups → q ∈ s)
    (hperm : s2.Perm (s ++ dups)) :
    (calculate ctx it s2).1 = (calculate ctx it s).1 ∧
    buildGraph it (sortSegments s2) initialGraph =
      buildGraph it (sortSegments s) initialGraph :=
  calculate_dup_free ctx it dups s s2 hmem hperm

/-- Closed instance of C7: the repository's own duplicated-routes test input
gives the same result as the four-segment original. -/
theorem claim_C7_witness :
    (calculate false idIter
      [("IND", "EWR"), ("SFO", "ATL"), ("SFO", "ATL"), ("GSO", "IND"), ("ATL", "GSO")]).1 =
    (calculate false idIter
      [("IND", "EWR"), ("SFO", "ATL"), ("GSO", "IND"), ("ATL", "GSO")]).1 :=
  (claim_C7_duplicate_segments false idIter
    [("IND", "EWR"), ("SFO", "ATL"), ("GSO", "IND"), ("ATL", "GSO")]
    [("SFO", "ATL")]
    [("IND", "EWR"), ("SFO", "ATL"), ("SFO", "ATL"), ("GSO", "IND"), ("ATL", "GSO")]
    (by decide) (by decide)).1

/-- C8: on the disconnected input IND→FDF, DAD→EED the synthesizer returns
exactly the single chain DAD, EED — one of the two two-element chains, never
a merge — and it does so for every map iteration order, because after the
lexicographic sort the first-seen longest run wins ties. -/
theorem claim_C8_disconnected_deterministic (ctx : Bool) (it : Iter String) :
    (calculate ctx it [("IND", "FDF"), ("DAD", "EED")]).1 =
      Except.ok ["DAD", "EED"] := by
  have hdeg : ∀ g, buildGraph idIter
      (sortSegments [("IND", "FDF"), ("DAD", "EED")])
      initialGraph = Except.ok g → ∀ v, (adjKeys g.Edges v).length ≤ 1 := by
    intro g hg
    have hg2 : (Except.ok (⟨StringHash, ⟨true, true, true⟩,
        ⟨[("DAD", "DAD"), ("EED", "EED"), ("IND", "IND"), ("FDF", "FDF")],
         [(("DAD", "EED"), ⟨"DAD", "EED"⟩), (("IND", "FDF"), ⟨"IND", "FDF"⟩)]⟩⟩ :
        directed String String) : Except GErr (directed String String)) = Except.ok g := hg
    cases hg2
    exact outdeg_le_one_of_pairwise (by decide)
  rw [calculate_det_of_outdeg ctx it idIter _ hdeg]
  rfl

/-- C9 counterexample: the input [[A,B],[A,C]] has a branching vertex, and
two runs of `calculate` under two legitimate map iteration orders return
different outputs ([A,C,B] versus [A,B,C]), refuting byte-identical
idempotence across runs. -/
theorem claim_C9_counterexample :
    (calculate false idIter [("A", "B"), ("A", "C")]).1 ≠
    (calculate false revIter [("A", "B"), ("A", "C")]).1 := by
  intro h
  have h1 : (calculate false idIter [("A", "B"), ("A", "C")]).1 =
      Except.ok ["A", "C", "B"] := rfl
  have h2 : (calculate false revIter [("A", "B"), ("A", "C")]).1 =
      Except.ok ["A", "B", "C"] := rfl
  rw [h1, h2] at h
  injection h with h3
  injection h3 with h4 h5
  injection h5 with h6 h7
  exact absurd h6 (by decide)

/-- C9 amended: synthesis is deterministic up to the unspecified adjacency
iteration order — for a fixed order `calculate` is a pure function, and
whenever every vertex of the constructed graph has at most one outgoing edge
(as in every chain-shaped example of the spec) the entire outcome, error or
path, is byte-identical across any two runs regardless of iteration order. -/
theorem claim_C9_amended_determinism (ctx : Bool) (it1 it2 : Iter String)
    (segments : List Seg)
    (hdeg : ∀ g, buildGraph idIter (sortSegments segments) initialGraph = Except.ok g →
      ∀ v, (adjKeys g.Edges v).length ≤ 1) :
    calculate ctx it1 segments = calculate ctx it2 segments :=
  calculate_det_of_outdeg ctx it1 it2 segments hdeg

/-- Closed instance of the amended C9: on the single-segment chain SFO→EWR
two runs under different iteration orders agree exactly. -/
theorem claim_C9_amended_witness :
    calculate false idIter [("SFO", "EWR")] = calculate false revIter [("SFO", "EWR")] := by
  apply claim_C9_amended_determinism
  intro g hg
  have hg2 : (Except.ok (⟨StringHash, ⟨true, true, true⟩,
      ⟨[("SFO", "SFO"), ("EWR", "EWR")], [(("SFO", "EWR"), ⟨"SFO", "EWR"⟩)]⟩⟩ :
      directed String String) : Except GErr (directed String String)) = Except.ok g := hg
  cases hg2
  exact outdeg_le_one_of_pairwise (by decide)

/-- C10: `calculate` mutates its caller's slice: after every call — also when
an error is returned — the slice holds the same segments permuted into
lexicographic order by source and then by target. -/
theorem claim_C10_sorts_argument_in_place (ctx : Bool) (it : Iter String)
    (segments : List Seg) :
    (calculate ctx it segments).2 = sortSegments segments ∧
    ((calculate ctx it segments).2).Perm segments ∧
    List.Sorted segLE (calculate ctx it segments).2 := by
  have h2 : (calculate ctx it segments).2 = sortSegments segments := by
    unfold calculate
    cases buildGraph it (sortSegments segments) initialGraph with
    | error e => rfl
    | ok g => rfl
  refine ⟨h2, ?_, ?_⟩
  · rw [h2]
    exact sortSegments_perm segments
  · rw [h2]
    exact sortSegments_sorted segments

end Flightpath
